import Mathlib

/-!
Verification of the make-smart-recurse streaming makefile-database parse
pipeline.  The definitions below are shallow embeddings of the Python
sources under `src/python3`; strings are modelled as `List Char` where
character-level behaviour matters, machine state as explicit structures,
and fallible operations return `Except`.
-/

namespace MakeSmartRecurse

/-! ## Recipe-line trimming (`ParseContextTargetBuilder._trim_recipe_line`) -/

/-- Python `str.rfind` on a list of characters: the greatest index at which
`c` occurs, or `-1` when `c` is absent. -/
def pyRfind : List Char → Char → Int
  | [], _ => -1
  | a :: rest, c =>
    if 0 ≤ pyRfind rest c then pyRfind rest c + 1
    else if a = c then 0 else -1

/-- Python slice `s[0:e]`: a negative bound counts from the end of the
string, and out-of-range bounds clamp. -/
def pySliceTo (s : List Char) (e : Int) : List Char :=
  if e < 0 then s.take ((s.length : Int) + e).toNat else s.take e.toNat

/-- Embedding of `ParseContextTargetBuilder._trim_recipe_line`
(`autorecurse/gnumake/implementation.py`, lines 45-52): compute
`remove_count` from the two `rfind` checks, then slice. -/
def trimRecipeLine (s : List Char) : List Char :=
  let removeCount0 : Int := 0
  let removeCount1 : Int :=
    if pyRfind s '\t' + 1 + removeCount0 = (s.length : Int) then removeCount0 + 1 else removeCount0
  let removeCount2 : Int :=
    if pyRfind s '\n' + 1 + removeCount1 = (s.length : Int) then removeCount1 + 1 else removeCount1
  pySliceTo s ((s.length : Int) - removeCount2)

/-- Spec-side trim law: remove one trailing tab if the final character is a
tab, then remove one trailing newline if the (new) final character is a
newline; nothing else changes. -/
def specTrimRecipe (s : List Char) : List Char :=
  let s1 := if s.getLast? = some '\t' then s.dropLast else s
  if s1.getLast? = some '\n' then s1.dropLast else s1

/-! ## Makefile locator priority table (`PriorityMakefileLocator`) -/

/-- Python `dict` assignment `m[k] = v`, modelled by shadowing: the new
binding is consulted first by `dictLookup`.  The pipeline only ever reads
the priorities dictionary through key lookup, so shadowing is
observationally identical to in-place overwrite. -/
def dictInsert (m : List (String × Nat)) (k : String) (v : Nat) : List (String × Nat) :=
  (k, v) :: m

/-- Python `k in m` / `m[k]` lookup on the dictionary model. -/
def dictLookup (m : List (String × Nat)) (k : String) : Option Nat :=
  (m.find? (fun p => p.1 = k)).map (·.2)

/-- Loop body of `PriorityMakefileLocator.set_filename_priorities`: the
running `index` starts at `len(filenames)` and decreases by one per name. -/
def setPrioritiesGo : List String → Nat → List (String × Nat) → List (String × Nat)
  | [], _, m => m
  | name :: rest, index, m => setPrioritiesGo rest (index - 1) (dictInsert m name index)

/-- Embedding of `PriorityMakefileLocator.set_filename_priorities`
(`autorecurse/gnumake/implementation.py`, lines 236-241). -/
def setFilenamePriorities (filenames : List String) : List (String × Nat) :=
  setPrioritiesGo filenames filenames.length []

/-- Loop body of `PriorityMakefileLocator._get_best_name`: track the best
name seen so far and its priority (initially `None` and `0`). -/
def getBestNameGo (prior : List (String × Nat)) :
    List String → Option String → Nat → Option String
  | [], best, _ => best
  | name :: rest, best, bestPriority =>
    match dictLookup prior name with
    | some p =>
      if bestPriority < p then getBestNameGo prior rest (some name) p
      else getBestNameGo prior rest best bestPriority
    | none => getBestNameGo prior rest best bestPriority

/-- Embedding of `PriorityMakefileLocator._get_best_name`
(`autorecurse/gnumake/implementation.py`, lines 243-252). -/
def getBestName (prior : List (String × Nat)) (filenames : List String) : Option String :=
  getBestNameGo prior filenames none 0

/-! ## `Line` construction (`lib/generics.py`, lines 58-97) -/

/-- Characters Python `str.splitlines` treats as line boundaries. -/
def isLineBreakChar (c : Char) : Bool :=
  c = '\n' || c = '\r' || c = '\x0B' || c = '\x0C' ||
  c = '\x1C' || c = '\x1D' || c = '\x1E' || c = '\x85' ||
  c = '\u2028' || c = '\u2029'

/-- Worker for `pySplitlines`; `acc` holds the current line reversed, and
a `"\r\n"` pair is consumed as a single boundary. -/
def pySplitlinesGo (acc : List Char) : List Char → List (List Char)
  | [] => if acc.isEmpty then [] else [acc.reverse]
  | [c] => if isLineBreakChar c then [acc.reverse] else [(c :: acc).reverse]
  | c :: d :: rest =>
    if c = '\r' ∧ d = '\n' then acc.reverse :: pySplitlinesGo [] rest
    else if isLineBreakChar c then acc.reverse :: pySplitlinesGo [] (d :: rest)
    else pySplitlinesGo (c :: acc) (d :: rest)

/-- Python `str.splitlines` (without `keepends`): `"\r\n"` counts as a
single boundary, and a trailing boundary does not produce an empty final
line. -/
def pySplitlines (s : List Char) : List (List Char) :=
  pySplitlinesGo [] s

/-- Embedding of `Line._setup` (`lib/generics.py`, lines 75-83): one line
keeps its content, the empty split gives `''`, anything else raises
`LineBreakError`. -/
def lineMake (s : List Char) : Except Unit (List Char) :=
  match pySplitlines s with
  | [l] => .ok l
  | [] => .ok []
  | _ => .error ()

/-- Number of line breaks in a string, counting `"\r\n"` as one break. -/
def countLineBreaks : List Char → Nat
  | [] => 0
  | [c] => if isLineBreakChar c then 1 else 0
  | c :: d :: rest =>
    if c = '\r' ∧ d = '\n' then countLineBreaks rest + 1
    else if isLineBreakChar c then countLineBreaks (d :: rest) + 1
    else countLineBreaks (d :: rest)

/-- A line break that is followed by at least one further character
(counting `"\r\n"` as a single break). -/
def hasInteriorBreak : List Char → Bool
  | [] => false
  | [_] => false
  | c :: d :: rest =>
    if c = '\r' ∧ d = '\n' then !rest.isEmpty
    else if isLineBreakChar c then true
    else hasInteriorBreak (d :: rest)

/-- Spec-side terminator strip: remove one trailing line terminator
(`"\r\n"` counting as one) if present. -/
def specStripTerminator : List Char → List Char
  | [] => []
  | [c] => if isLineBreakChar c then [] else [c]
  | c :: d :: rest =>
    if c = '\r' ∧ d = '\n' ∧ rest = [] then []
    else c :: specStripTerminator (d :: rest)

/-! ## Line-filter state machines
(`src/autorecurse/gnumake/grammar/filter.py`) -/

/-- Modelled from the spec: `ConditionFilter` (`autorecurse/lib/stream.py`
is not among the sources).  Per section 4.1, the filter shows each source
item to the stateful condition and forwards the item exactly when the
condition's verdict is then true. -/
def conditionFilter {σ α : Type} (step : σ → α → σ) (cond : σ → Bool) :
    σ → List α → List α
  | _, [] => []
  | s, x :: xs =>
    let s' := step s x
    if cond s' then x :: conditionFilter step cond s' xs
    else conditionFilter step cond s' xs

/-- States of `FileSectionFilter`
(`src/autorecurse/gnumake/grammar/filter.py`, lines 46-105):
no-printing, before-printing, printing, finished. -/
inductive FsState
  | noPrinting
  | beforePrinting
  | printing
  | finished
deriving DecidableEq, Repr

/-- Start anchor of the file section. -/
def fsStartLine : String := "# Files"

/-- End anchor of the file section. -/
def fsEndLine : String := "# files hash-table stats:"

/-- Transition function of `FileSectionFilter`: classify the incoming line
as Start/End/Line and apply the `_TRANSITIONS` table. -/
def fsStep (s : FsState) (line : String) : FsState :=
  if line = fsStartLine then
    match s with
    | .noPrinting => .beforePrinting
    | .printing => .printing
    | .beforePrinting => .printing
    | .finished => .finished
  else if line = fsEndLine then
    match s with
    | .noPrinting => .noPrinting
    | .printing => .finished
    | .beforePrinting => .noPrinting
    | .finished => .finished
  else
    match s with
    | .noPrinting => .noPrinting
    | .printing => .printing
    | .beforePrinting => .printing
    | .finished => .finished

/-- `FileSectionFilter.condition`: forward exactly in the printing state. -/
def fsCond (s : FsState) : Bool := s = .printing

/-- Run the file-section filter over a list of lines from a given state. -/
def fsRun (s : FsState) (lines : List String) : FsState :=
  lines.foldl fsStep s

/-- States of `DatabaseSectionFilter` (same file, lines 110-184). -/
inductive DbState
  | noPrinting
  | printing
deriving DecidableEq, Repr

/-- Start anchor of the database section. -/
def dbStartLine : String := "# Pattern-specific Variable Values"

/-- Transition function of `DatabaseSectionFilter`: the anchor switches to
printing, printing is absorbing, any other line preserves the state. -/
def dbStep (s : DbState) (line : String) : DbState :=
  if line = dbStartLine then .printing else s

/-- `DatabaseSectionFilter.condition`. -/
def dbCond (s : DbState) : Bool := s = .printing

/-- Transition function of `InformationalCommentFilter` (same file, lines
187-242): the printing flag becomes false exactly on a line matching
`^#  ` (hash plus two spaces). -/
def icStep (_ : Bool) (line : String) : Bool :=
  !line.startsWith "#  "

/-- `InformationalCommentFilter.condition`: the printing flag itself. -/
def icCond (s : Bool) : Bool := s

/-! ## Data model: makefile descriptors, targets, rule contexts -/

/-- `Makefile` descriptor (`autorecurse/gnumake/data.py` interface):
execution directory plus filename. -/
structure MakefileDesc where
  execPath : String
  filePath : String
deriving DecidableEq, Repr

/-- A `MakefileRuleParser.MakefileRuleContext` as the pipeline observes
it: the identifier texts of its targets, prerequisites and order-only
prerequisites, and its recipe-line token texts. -/
structure RuleCtx where
  targets : List String
  prerequisites : List String
  orderOnly : List String
  recipeLineTexts : List String
deriving DecidableEq, Repr

/-- The emitted `Target` value object. -/
structure Target where
  path : String
  prerequisites : List String
  orderOnlyPrerequisites : List String
  recipeLines : List String
  file : Option MakefileDesc
deriving DecidableEq, Repr

/-- String wrapper around `trimRecipeLine`. -/
def trimRecipeLineStr (s : String) : String :=
  ⟨trimRecipeLine s.data⟩

/-- Embedding of `ParseContextTargetBuilder.build_target`
(`autorecurse/gnumake/implementation.py`, lines 30-43), without the
`file` attachment done by `_generate_target`.  Returns `none` when
`target_index` is out of range (the Python code would fail there; the
grammar guarantees at least one target per rule). -/
def buildTarget (c : RuleCtx) (i : Nat) : Option Target :=
  (c.targets.get? i).map fun path =>
    { path := path
      prerequisites := c.prerequisites
      orderOnlyPrerequisites := c.orderOnly
      recipeLines := c.recipeLineTexts.map trimRecipeLineStr
      file := none }

/-! ## Target emitter (`MakefileRuleParserToIteratorAdapter`,
`autorecurse/gnumake/implementation.py`, lines 111-221) -/

/-- Signals a `MakefileRuleParser.declaration()` call can raise:
the grammar's end-of-input `ParseCancellationException`, or any other
parser failure. -/
inductive ParseSignal
  | parseCancelled
  | otherFailure
deriving DecidableEq, Repr

/-- One `declaration()` outcome: a signal, or a parse context whose
`makefileRule()` child may be absent. -/
abbrev DeclResult := Except ParseSignal (Option RuleCtx)

/-- Decidable equality for `Except` results, used to evaluate witnesses. -/
instance exceptDecEq {ε α : Type} [DecidableEq ε] [DecidableEq α] :
    DecidableEq (Except ε α) := fun x y =>
  match x, y with
  | .ok a, .ok b =>
    if h : a = b then .isTrue (by rw [h]) else .isFalse (by intro hh; cases hh; exact h rfl)
  | .error a, .error b =>
    if h : a = b then .isTrue (by rw [h]) else .isFalse (by intro hh; cases hh; exact h rfl)
  | .ok _, .error _ => .isFalse (by intro hh; cases hh)
  | .error _, .ok _ => .isFalse (by intro hh; cases hh)

/-- State of `MakefileRuleParserToIteratorAdapter`.  The parser is
modelled by the list of its remaining `declaration()` outcomes;
an exhausted list behaves as the grammar's end-of-input cancellation. -/
structure EmitterState where
  decls : List DeclResult
  makefile : Option MakefileDesc
  index : Nat
  target : Option Target
  context : Option RuleCtx
  isAtEnd : Bool
deriving DecidableEq, Repr

/-- `_to_E`: reset the index, drop target and context, set the end flag. -/
def emitterToE (s : EmitterState) : EmitterState :=
  { s with index := 0, target := none, context := none, isAtEnd := true }

/-- `_to_I`: clear the end flag. -/
def emitterToI (s : EmitterState) : EmitterState :=
  { s with isAtEnd := false }

/-- `_to_S` on a fresh adapter (`_setup`). -/
def emitterInit (decls : List DeclResult) (mk : Option MakefileDesc) : EmitterState :=
  { decls := decls, makefile := mk, index := 0, target := none,
    context := none, isAtEnd := false }

/-- `has_current_item`: the cached target is present. -/
def emitterHasCurrent (s : EmitterState) : Bool :=
  s.target.isSome

/-- `is_at_start`: neither a current item nor at end. -/
def emitterIsAtStart (s : EmitterState) : Bool :=
  !(emitterHasCurrent s || s.isAtEnd)

/-- `_current_length`: number of targets of the current context in state I,
zero in states S and E. -/
def emitterCurrentLength (s : EmitterState) : Nat :=
  if emitterIsAtStart s then 0
  else if emitterHasCurrent s then (s.context.map (·.targets.length)).getD 0
  else 0

/-- `_get_next_context`: call `declaration()`; catch the parse-cancelled
signal and move to E, re-raise any other signal, otherwise store the
`makefileRule()` child. -/
def getNextContext (s : EmitterState) : Except ParseSignal EmitterState :=
  match s.decls with
  | [] => .ok (emitterToE s)
  | d :: rest =>
    match d with
    | .error .parseCancelled => .ok (emitterToE { s with decls := rest })
    | .error e => .error e
    | .ok ctx => .ok { s with decls := rest, context := ctx }

/-- Fueled loop body of `_get_next_non_empty_context`; each iteration
consumes one `declaration()` outcome, so fuel `decls.length + 1` never
runs out. -/
def getNextNonEmptyContextGo : Nat → EmitterState → Except ParseSignal EmitterState
  | 0, s => .ok s
  | n + 1, s =>
    match getNextContext s with
    | .error e => .error e
    | .ok s' =>
      if s'.context.isSome || s'.isAtEnd then .ok s'
      else getNextNonEmptyContextGo n s'

/-- `_get_next_non_empty_context`: call `_get_next_context`, then loop
while no context is present and the end state has not been reached. -/
def getNextNonEmptyContext (s : EmitterState) : Except ParseSignal EmitterState :=
  getNextNonEmptyContextGo (s.decls.length + 1) s

/-- `_generate_target`: build the target for the current context and index
and attach the owning makefile. -/
def generateTarget (s : EmitterState) : EmitterState :=
  match s.context with
  | some c =>
    { s with target := (buildTarget c s.index).map fun t => { t with file := s.makefile } }
  | none => { s with target := none }

/-- `_get_next_target`: pull the next non-empty context; on success
generate target 0 and move to I, otherwise stay in E. -/
def getNextTarget (s : EmitterState) : Except ParseSignal EmitterState :=
  match getNextNonEmptyContext s with
  | .error e => .error e
  | .ok s' =>
    if !s'.isAtEnd then .ok (emitterToI (generateTarget s'))
    else .ok s'

/-- `move_to_next` of the target emitter. -/
def emitterMoveToNext (s : EmitterState) : Except ParseSignal EmitterState :=
  if emitterIsAtStart s then
    getNextTarget s
  else
    if s.index + 1 ≠ emitterCurrentLength s then
      .ok (generateTarget { s with index := s.index + 1 })
    else
      getNextTarget { s with index := 0 }

/-- Fueled client loop over the emitter: advance, then collect the current
item, until the end state (the iterator consumption protocol). -/
def emitterTrace : Nat → EmitterState → Except ParseSignal (List Target)
  | 0, _ => .ok []
  | n + 1, s =>
    if s.isAtEnd then .ok []
    else
      match emitterMoveToNext s with
      | .error e => .error e
      | .ok s' =>
        match s'.target with
        | some t => (emitterTrace n s').map (t :: ·)
        | none => emitterTrace n s'

/-- Fuel budget for a declaration outcome: one step plus one step per
target of a successful non-empty context. -/
def declWeight : DeclResult → Nat
  | .ok (some c) => 1 + c.targets.length
  | _ => 1

/-- Sufficient fuel to drain the emitter over the given outcomes. -/
def emitterFuel (decls : List DeclResult) : Nat :=
  (decls.map declWeight).sum + 1

/-- Number of targets the emitter is expected to produce. -/
def totalTargets (decls : List DeclResult) : Nat :=
  (decls.map fun d => match d with
    | .ok (some c) => c.targets.length
    | _ => 0).sum

/-- The target the builder produces for `(context, target-index)`: path
from the indexed target identifier, shared prerequisite lists, trimmed
recipe lines, owning makefile attached. -/
def expectedTarget (c : RuleCtx) (mk : Option MakefileDesc) (i : Nat) : Target :=
  { path := (c.targets.get? i).getD ""
    prerequisites := c.prerequisites
    orderOnlyPrerequisites := c.orderOnly
    recipeLines := c.recipeLineTexts.map trimRecipeLineStr
    file := mk }

/-- Expected emission: one `Target` per (context, target-index) pair, in
header order, sharing the context's prerequisite lists. -/
def expectedTargets (decls : List DeclResult) (mk : Option MakefileDesc) : List Target :=
  decls.flatMap fun d =>
    match d with
    | .ok (some c) => (List.range c.targets.length).map (expectedTarget c mk)
    | _ => []

/-- One pull step (`_get_next_target`) followed by the client loop: the
emitter trace restarted at a context boundary. -/
def emitterPullTrace (fuel : Nat) (s : EmitterState) : Except ParseSignal (List Target) :=
  match getNextTarget s with
  | .error e => .error e
  | .ok s' =>
    match s'.target with
    | some t => (emitterTrace fuel s').map (t :: ·)
    | none => emitterTrace fuel s'

/-! ## Generic pull iterators and tokens -/

/-- The three-state S/I/E pull-iterator protocol
(`src/autorecurse/lib/iterator.py`) over a list of items: start, an
intermediate state holding the current item and the items still to come,
or end. -/
inductive SrcState (α : Type)
  | atStart (items : List α)
  | mid (cur : α) (rest : List α)
  | atEnd
deriving DecidableEq, Repr

/-- `move_to_next` on the list-backed iterator. -/
def srcMove {α : Type} : SrcState α → SrcState α
  | .atStart [] => .atEnd
  | .atStart (h :: t) => .mid h t
  | .mid _ [] => .atEnd
  | .mid _ (h :: t) => .mid h t
  | .atEnd => .atEnd

/-- `has_current_item`. -/
def srcHasCurrent {α : Type} : SrcState α → Bool
  | .mid _ _ => true
  | _ => false

/-- `current_item` where available. -/
def srcCurrent? {α : Type} : SrcState α → Option α
  | .mid c _ => some c
  | _ => none

/-- `is_at_start`. -/
def srcIsAtStart {α : Type} : SrcState α → Bool
  | .atStart _ => true
  | _ => false

/-- Items the iterator has not yet presented (including a pending current
item transition for `atStart`). -/
def srcRemaining {α : Type} : SrcState α → Nat
  | .atStart l => l.length + 1
  | .mid _ r => r.length + 1
  | .atEnd => 0

/-- An ANTLR token as the pipeline observes it: integer type tag plus
literal text. -/
structure Tok where
  type : Int
  text : List Char
deriving DecidableEq, Repr

/-- `Token.EOF` of the ANTLR runtime. -/
def eofType : Int := -1

/-- Item sequence of `TokenSourceToIteratorAdapter`
(`src/autorecurse/lib/antlr4/stream.py`, lines 624-687) over a token
source that yields `toks` and then mints `eof` forever: pull until the
first EOF-typed token, which is itself presented as the last item. -/
def tokenSourceItems : List Tok → Tok → List Tok
  | [], eof => [eof]
  | t :: ts, eof => if t.type = eofType then [t] else t :: tokenSourceItems ts eof

/-! ## `TokenToCharIterator`
(`src/autorecurse/lib/antlr4/stream.py`, lines 689-788) -/

/-- State of `TokenToCharIterator`: the source iterator, the character
index within the current token text, and the cached text (absent in the
start and end states). -/
structure TTCState where
  src : SrcState Tok
  index : Nat
  text : Option (List Char)
deriving DecidableEq, Repr

/-- `_set_text`: cache the source's current text unless the current token
is EOF-typed, in which case move to E. -/
def ttcSetText (s : TTCState) : TTCState :=
  match srcCurrent? s.src with
  | some tok =>
    if tok.type ≠ eofType then { s with text := some tok.text }
    else { s with text := none }
  | none => s

/-- `_setup` plus `_initialize`: start with index 0 and no text, then cache
the current token's text when the source is already mid-stream. -/
def ttcInit (src : SrcState Tok) : TTCState :=
  let s : TTCState := ⟨src, 0, none⟩
  match src with
  | .atStart _ => s
  | .mid _ _ => ttcSetText s
  | .atEnd => s

/-- `has_current_item`. -/
def ttcHasCurrent (s : TTCState) : Bool :=
  s.text.isSome

/-- `is_at_start`: delegated to the source iterator. -/
def ttcIsAtStart (s : TTCState) : Bool :=
  srcIsAtStart s.src

/-- `is_at_end`. -/
def ttcIsAtEnd (s : TTCState) : Bool :=
  !(ttcHasCurrent s || ttcIsAtStart s)

/-- `current_item` where available. -/
def ttcCurrent? (s : TTCState) : Option Char :=
  s.text.bind fun t => t.get? s.index

/-- `_current_length`. -/
def ttcCurrentLength (s : TTCState) : Nat :=
  if ttcIsAtStart s then 0
  else match s.text with
    | some t => t.length
    | none => 0

/-- `_move_to_next_text`: advance the source; in source state I cache the
text (`_set_text`, moving to E on the EOF token), otherwise move to E. -/
def ttcNextText (s : TTCState) : TTCState :=
  match srcMove s.src with
  | .mid c r =>
    if c.type ≠ eofType then ⟨.mid c r, s.index, some c.text⟩
    else ⟨.mid c r, s.index, none⟩
  | src' => ⟨src', s.index, none⟩

/-- Fueled loop body of `_move_to_next_non_blank_token`; each iteration
advances the source by one item, so fuel `srcRemaining + 1` never runs
out. -/
def ttcNextNonBlankGo : Nat → TTCState → TTCState
  | 0, s => s
  | n + 1, s =>
    let s' := ttcNextText s
    if s'.text = some [] then ttcNextNonBlankGo n s' else s'

/-- `_move_to_next_non_blank_token`: advance to the next text, skipping
texts of length zero, until a non-blank token or the end state. -/
def ttcNextNonBlank (s : TTCState) : TTCState :=
  ttcNextNonBlankGo (srcRemaining s.src + 1) s

/-- `move_to_next` of `TokenToCharIterator`. -/
def ttcMoveToNext (s : TTCState) : TTCState :=
  if ttcIsAtStart s then ttcNextNonBlank s
  else
    if s.index + 1 ≠ ttcCurrentLength s then { s with index := s.index + 1 }
    else ttcNextNonBlank { s with index := 0 }

/-- Fueled client loop over `TokenToCharIterator`: advance, collect the
current character, stop at end. -/
def ttcTrace : Nat → TTCState → List Char
  | 0, _ => []
  | n + 1, s =>
    if ttcIsAtEnd s then []
    else
      let s' := ttcMoveToNext s
      match ttcCurrent? s' with
      | some c => c :: ttcTrace n s'
      | none => ttcTrace n s'

/-- Iterated `move_to_next` until the end state, to observe the final
machine state. -/
def ttcRun : Nat → TTCState → TTCState
  | 0, s => s
  | n + 1, s => if ttcIsAtEnd s then s else ttcRun n (ttcMoveToNext s)

/-- Sufficient fuel to drain a `TokenToCharIterator` over `toks`. -/
def ttcFuel (toks : List Tok) : Nat :=
  (toks.map fun t => t.text.length + 1).sum + 1

/-- Items a source iterator has yet to present. -/
def srcFuture {α : Type} : SrcState α → List α
  | .atStart l => l
  | .mid _ r => r
  | .atEnd => []

/-- Total text length of a token list. -/
def totalTokText (ts : List Tok) : Nat :=
  (ts.map (·.text.length)).sum

/-- State `_move_to_next_non_blank_token` reaches when the source still
has to present `ts`: skip empty-text tokens, stop at the first EOF-typed
token (caching no text) or at the first non-blank text, or at source
exhaustion. -/
def ttcPullResult : List Tok → Nat → TTCState
  | [], idx => ⟨.atEnd, idx, none⟩
  | t :: r, idx =>
    if t.type = eofType then ⟨.mid t r, idx, none⟩
    else if t.text = [] then ttcPullResult r idx
    else ⟨.mid t r, idx, some t.text⟩

/-- Expected emission of `TokenToCharIterator`: the concatenated texts of
the tokens preceding the first EOF-typed token. -/
def ttcExpected (ts : List Tok) : List Char :=
  (ts.takeWhile (fun t => t.type ≠ eofType)).flatMap (·.text)

/-! ## Markable stream adapter (`IteratorToIntStreamAdapter` and
variants, `src/autorecurse/lib/antlr4/stream.py`, lines 13-344).

The managed FIFO (`ArrayedFifo`, `FifoGlobalIndexWrapper`, `FifoManager`
of `autorecurse/lib/fifo.py`) is not among the sources; its state is
modelled from the spec, section 3 "Lookahead buffer": buffered items in
order, the count of garbage-collected items (`dropped`, so the lowest
still-buffered global index is `dropped`), a read cursor, the set of
active marks with their pinned global indices, and the mark allocator. -/

/-- State of a markable stream adapter over a source iterator. -/
structure MSA (α : Type) where
  src : SrcState α
  dropped : Nat
  buf : List α
  cursor : Nat
  marks : List (Nat × Nat)
  nextRef : Nat
deriving DecidableEq, Repr

/-- `size`: total number of items observed so far (`global_count`). -/
def msaSize {α : Type} (a : MSA α) : Nat :=
  a.dropped + a.buf.length

/-- `has_current_item`: the cursor sits on a buffered item (state I). -/
def msaHasCurrent {α : Type} (a : MSA α) : Bool :=
  a.cursor < a.buf.length

/-- `is_at_start`: the adapter has no start state
(`IteratorToIntStreamAdapter.is_at_start`, lines 151-153). -/
def msaIsAtStart {α : Type} (_ : MSA α) : Bool :=
  false

/-- `is_at_end`: the buffer cursor is past the last buffered item. -/
def msaIsAtEnd {α : Type} (a : MSA α) : Bool :=
  !msaHasCurrent a

/-- `current_item` where available. -/
def msaCurrent? {α : Type} (a : MSA α) : Option α :=
  a.buf.get? a.cursor

/-- `index`: the cursor's global position in state I, the size otherwise. -/
def msaIndex {α : Type} (a : MSA α) : Nat :=
  if msaHasCurrent a then a.dropped + a.cursor else msaSize a

/-- State discriminator `_is_E`: at end with a non-empty buffer. -/
def msaIsE {α : Type} (a : MSA α) : Bool :=
  msaIsAtEnd a && !a.buf.isEmpty

/-- State discriminator `_is_EE`: at end with an empty buffer. -/
def msaIsEE {α : Type} (a : MSA α) : Bool :=
  msaIsAtEnd a && a.buf.isEmpty

/-- `_lowest_index_in_buffer` (`global_count - count`). -/
def msaLowest {α : Type} (a : MSA α) : Nat :=
  a.dropped

/-- `_index_is_in_buffer`. -/
def msaIndexInBuffer {α : Type} (a : MSA α) (i : Nat) : Bool :=
  msaLowest a ≤ i && i < msaSize a

/-- `_load_one_item_from_iterator`: if the source has a current item,
advance it and push the new current item (if any) onto the buffer. -/
def msaLoadOne {α : Type} (a : MSA α) : MSA α :=
  match a.src with
  | .mid c rest =>
    match srcMove (.mid c rest) with
    | .mid c2 r2 => { a with src := .mid c2 r2, buf := a.buf ++ [c2] }
    | src' => { a with src := src' }
  | _ => a

/-- `move_to_next` (valid in state I): step within the buffer if more is
buffered, otherwise load one item from the source and step. -/
def msaMoveToNext {α : Type} (a : MSA α) : MSA α :=
  if a.cursor + 1 ≠ a.buf.length then { a with cursor := a.cursor + 1 }
  else
    let a' := msaLoadOne a
    { a' with cursor := a'.cursor + 1 }

/-- Core of `_setup`/`_initialize_buffer` once the source is past its
start state: push the source's current item (if any) and move the buffer
onto it. -/
def msaInitCore {α : Type} : SrcState α → MSA α
  | .mid c r => ⟨.mid c r, 0, [c], 0, [], 0⟩
  | src => ⟨src, 0, [], 0, [], 0⟩

/-- `IteratorToIntStreamAdapter._setup` plus `_initialize_buffer`: a source
at start is advanced first. -/
def msaInit {α : Type} (src : SrcState α) : MSA α :=
  match src with
  | .atStart l => msaInitCore (srcMove (.atStart l))
  | s => msaInitCore s

/-- Error kinds the adapter surfaces. -/
inductive StreamErr
  | negativeIndex
  | releasedPosition
  | readPastEnd
deriving DecidableEq, Repr

/-- The `while not (diff == 0 or self.is_at_end)` loop of `seek`:
`move_to_next` up to `diff` times, stopping at the end state. -/
def msaSeekLoop {α : Type} : Nat → MSA α → MSA α
  | 0, a => a
  | d + 1, a => if msaIsAtEnd a then a else msaSeekLoop d (msaMoveToNext a)

/-- Embedding of `IteratorToIntStreamAdapter.seek`
(`src/autorecurse/lib/antlr4/stream.py`, lines 288-323). -/
def msaSeek {α : Type} (a : MSA α) (i : Int) : Except StreamErr (MSA α) :=
  if i < 0 then .error .negativeIndex
  else
    let idx := i.toNat
    if msaHasCurrent a then
      if msaSize a ≤ idx then
        let a1 : MSA α := { a with cursor := a.buf.length - 1 }
        .ok (msaSeekLoop (idx - msaIndex a1) a1)
      else
        if msaIndexInBuffer a idx then .ok { a with cursor := idx - a.dropped }
        else .error .releasedPosition
    else if msaIsE a then
      if msaSize a ≤ idx then .ok a
      else
        if msaIndexInBuffer a idx then .ok { a with cursor := idx - a.dropped }
        else .error .releasedPosition
    else
      if msaSize a ≤ idx then .ok a
      else .error .releasedPosition

/-- `consume`: advance in state I, fail past the end. -/
def msaConsume {α : Type} (a : MSA α) : Except StreamErr (MSA α) :=
  if msaHasCurrent a then .ok (msaMoveToNext a) else .error .readPastEnd

/-- Modelled from the spec: `FifoManager.new_strong_reference` pins the
suffix of the queue starting at the current global index and returns a
fresh handle. -/
def msaNewRef {α : Type} (a : MSA α) : Nat × MSA α :=
  (a.nextRef, { a with marks := (a.nextRef, msaIndex a) :: a.marks, nextRef := a.nextRef + 1 })

/-- Modelled from the spec: releasing a handle is tolerant of unknown
handles. -/
def msaReleaseRef {α : Type} (a : MSA α) (ref : Nat) : MSA α :=
  { a with marks := a.marks.filter (fun m => m.1 ≠ ref) }

/-- Modelled from the spec: `collect_garbage` reclaims the prefix strictly
behind the cursor and behind every pinned global index. -/
def msaCollect {α : Type} (a : MSA α) : MSA α :=
  let limit := a.marks.foldr (fun m acc => min m.2 acc) (msaIndex a)
  let d := limit - a.dropped
  { a with dropped := a.dropped + d, buf := a.buf.drop d, cursor := a.cursor - d }

/-- `release`: drop the handle, then collect garbage. -/
def msaRelease {α : Type} (a : MSA α) (ref : Nat) : MSA α :=
  msaCollect (msaReleaseRef a ref)

/-- `mark`: in state I allocate a handle other than the reserved zero
(`_new_strong_reference_exclude`); past the end return the zero sentinel. -/
def msaMark {α : Type} (a : MSA α) : Nat × MSA α :=
  if msaHasCurrent a then
    let (t, a1) := msaNewRef a
    if t = 0 then
      let (t2, a2) := msaNewRef a1
      (t2, msaReleaseRef a2 0)
    else (t, a1)
  else (0, a)

/-- Items the stream can still produce, counting buffered-unread items and
unpulled source items. -/
def msaTotal {α : Type} (a : MSA α) : Nat :=
  msaSize a +
    (match a.src with
     | .mid _ r => r.length
     | _ => 0)

/-- Source-consistency of the adapter: in source state I the source's
current item is the most recently buffered one. -/
def msaSrcConsistent {α : Type} [DecidableEq α] (a : MSA α) : Bool :=
  match a.src with
  | .mid c _ => !a.buf.isEmpty && a.buf.getLast? = some c
  | _ => true

/-- Invariant characterizing the reachable adapter states: the cursor stays
within the buffer bounds, the adapter is at its buffer end only once the
source is exhausted, the source is never still at start, and in source
state I the source's current item is the most recently buffered one. -/
@[reducible] def MSAInv {α : Type} [DecidableEq α] (a : MSA α) : Prop :=
  a.cursor ≤ a.buf.length ∧
  (a.buf.length ≤ a.cursor → a.src = SrcState.atEnd) ∧
  msaSrcConsistent a = true ∧
  srcIsAtStart a.src = false

/-- Fueled client drain of the adapter through its iterator facet: collect
the current item and advance, until the end state. -/
def msaDrain {α : Type} : Nat → MSA α → List α
  | 0, _ => []
  | n + 1, a =>
    match msaCurrent? a with
    | some c => c :: msaDrain n (msaMoveToNext a)
    | none => []

/-! ### Token-stream variant (`IteratorToTokenStreamAdapter`,
`src/autorecurse/lib/antlr4/stream.py`, lines 420-621) -/

/-- Token-variant `_initialize_buffer` core: an EOF-typed current token is
treated as the end signal and never buffered. -/
def msaTokenInitCore : SrcState Tok → MSA Tok
  | .mid c r =>
    if c.type ≠ eofType then ⟨.mid c r, 0, [c], 0, [], 0⟩
    else ⟨.mid c r, 0, [], 0, [], 0⟩
  | src => ⟨src, 0, [], 0, [], 0⟩

/-- `IteratorToTokenStreamAdapter._setup` plus its `_initialize_buffer`
(lines 510-535).  The documented specification domain requires the source
to present at least one token (ending with an EOF token). -/
def msaTokenInit (src : SrcState Tok) : MSA Tok :=
  match src with
  | .atStart l => msaTokenInitCore (srcMove (.atStart l))
  | s => msaTokenInitCore s

/-- Token-variant `_load_one_item_from_iterator` (lines 537-552): never
advance the source past an EOF-typed token, and never buffer one. -/
def msaTokenLoadOne (a : MSA Tok) : MSA Tok :=
  match a.src with
  | .mid c rest =>
    if c.type ≠ eofType then
      match srcMove (.mid c rest) with
      | .mid c2 r2 =>
        if c2.type ≠ eofType then { a with src := .mid c2 r2, buf := a.buf ++ [c2] }
        else { a with src := .mid c2 r2 }
      | src' => { a with src := src' }
    else a
  | _ => a

/-- Token-variant `move_to_next`. -/
def msaTokenMoveToNext (a : MSA Tok) : MSA Tok :=
  if a.cursor + 1 ≠ a.buf.length then { a with cursor := a.cursor + 1 }
  else
    let a' := msaTokenLoadOne a
    { a' with cursor := a'.cursor + 1 }

/-- Fueled client drain of the token adapter through its iterator facet. -/
def msaTokenDrain : Nat → MSA Tok → List Tok
  | 0, _ => []
  | n + 1, a =>
    match msaCurrent? a with
    | some c => c :: msaTokenDrain n (msaTokenMoveToNext a)
    | none => []

/-! ## Pipeline assemblies (`Factory`,
`autorecurse/gnumake/implementation.py`, lines 55-108).

The two external grammars are abstracted as deterministic functions of the
character/token sequence their input stream presents: a lexer maps the
stream's characters to its emitted (non-EOF) tokens and mints a fixed EOF
token, and the parser maps the presented token sequence to the sequence of
its `declaration()` outcomes.  These are the black-box collaborators of
spec section 6. -/

/-- Modelled from the spec: `LineToCharIterator` (`autorecurse/lib/line.py`
is not among the sources); section 2 stage 5 flattens lines into
characters, and since `Line` values carry no terminator the flattening
restores one newline per line. -/
def lineToCharItems (lines : List String) : List Char :=
  lines.flatMap fun l => l.data ++ ['\n']

/-- Inner loop of the `Factory` drain
(`while file_section_chars.has_current_item: write; move_to_next`). -/
def drainFrom {α : Type} : α → List α → List α
  | c, [] => [c]
  | c, h :: t => c :: drainFrom h t

/-- The `Factory` buffered-drain idiom: `if is_at_start: move_to_next`,
then collect every current item into the string buffer. -/
def factoryDrain {α : Type} (s : SrcState α) : List α :=
  match (if srcIsAtStart s then srcMove s else s) with
  | .mid c r => drainFrom c r
  | _ => []

/-- Character sequence an ANTLR `InputStream` built from string `s`
presents to its lexer. -/
def inputStreamChars (s : List Char) : List Char := s

/-- Modelled from the spec: token sequence a `CommonTokenStream` (ANTLR
runtime, external collaborator) presents to the parser — the lexer's
tokens with its EOF token in band. -/
def commonTokenStreamPresented (body : List Tok) (eof : Tok) : List Tok :=
  body ++ [eof]

/-- Token sequence the `IteratorToTokenStreamAdapter` presents to the
parser: the items its iterator facet yields before the source's EOF token,
followed by that cached EOF token (`LT` past the end returns it). -/
def tokenAdapterPresented (items : List Tok) (fuel : Nat) : List Tok :=
  msaTokenDrain fuel (msaTokenInit (.atStart items)) ++
    (items.dropWhile (fun t => t.type ≠ eofType)).take 1

/-- Sufficient fuel for a character-adapter drain over `cs`. -/
def msaDrainFuel (cs : List Char) : Nat := cs.length + 1

/-- Embedding of `Factory.make_target_iterator_for_file`
(`autorecurse/gnumake/implementation.py`, lines 57-88): the buffered
assembly drains each adapter boundary into an in-memory `InputStream` /
`CommonTokenStream`.  The result is the emitted target sequence of the
returned iterator. -/
def makeTargetIteratorForFile (lines : List String)
    (lex1 : List Char → List Tok) (eof1 : Tok)
    (lex2 : List Char → List Tok) (eof2 : Tok)
    (parse : List Tok → List DeclResult)
    (mk : Option MakefileDesc) : Except ParseSignal (List Target) :=
  let databaseSection := conditionFilter dbStep dbCond DbState.noPrinting lines
  let fileSection := conditionFilter fsStep fsCond FsState.noPrinting databaseSection
  let fileSectionNoComments := conditionFilter icStep icCond true fileSection
  let fileSectionChars := lineToCharItems fileSectionNoComments
  let charStream1 := inputStreamChars (factoryDrain (SrcState.atStart fileSectionChars))
  let paragraphTokens := tokenSourceItems (lex1 charStream1) eof1
  let paragraphChars := ttcTrace (ttcFuel paragraphTokens) (ttcInit (SrcState.atStart paragraphTokens))
  let charStream2 := inputStreamChars (factoryDrain (SrcState.atStart paragraphChars))
  let presented := commonTokenStreamPresented (lex2 charStream2) eof2
  let decls := parse presented
  emitterTrace (emitterFuel decls) (emitterInit decls mk)

/-- Embedding of `Factory.make_target_iterator_for_file_streaming`
(`autorecurse/gnumake/implementation.py`, lines 90-108): the streaming
assembly wraps each boundary in a markable stream adapter. -/
def makeTargetIteratorForFileStreaming (lines : List String)
    (lex1 : List Char → List Tok) (eof1 : Tok)
    (lex2 : List Char → List Tok) (eof2 : Tok)
    (parse : List Tok → List DeclResult)
    (mk : Option MakefileDesc) : Except ParseSignal (List Target) :=
  let databaseSection := conditionFilter dbStep dbCond DbState.noPrinting lines
  let fileSection := conditionFilter fsStep fsCond FsState.noPrinting databaseSection
  let fileSectionNoComments := conditionFilter icStep icCond true fileSection
  let fileSectionChars := lineToCharItems fileSectionNoComments
  let charStream1 := msaDrain (msaDrainFuel fileSectionChars) (msaInit (SrcState.atStart fileSectionChars))
  let paragraphTokens := tokenSourceItems (lex1 charStream1) eof1
  let paragraphChars := ttcTrace (ttcFuel paragraphTokens) (ttcInit (SrcState.atStart paragraphTokens))
  let charStream2 := msaDrain (msaDrainFuel paragraphChars) (msaInit (SrcState.atStart paragraphChars))
  let ruleTokens := tokenSourceItems (lex2 charStream2) eof2
  let presented := tokenAdapterPresented ruleTokens (ruleTokens.length + 1)
  let decls := parse presented
  emitterTrace (emitterFuel decls) (emitterInit decls mk)

/-! # Theorems -/

/-! ## C4: the recipe trim law -/

theorem pyRfind_lt_length (s : List Char) (c : Char) :
    pyRfind s c < (s.length : Int) := by
  induction s with
  | nil => simp [pyRfind]
  | cons a rest ih =>
    simp only [pyRfind, List.length_cons]
    split
    · push_cast
      omega
    · split <;> push_cast <;> omega

theorem pyRfind_concat (xs : List Char) (a c : Char) :
    pyRfind (xs ++ [a]) c = if a = c then (xs.length : Int) else pyRfind xs c := by
  induction xs with
  | nil =>
    by_cases h : a = c <;> simp [pyRfind, h]
  | cons x xs' ih =>
    rw [List.cons_append, pyRfind, ih]
    by_cases h : a = c
    · simp only [if_pos h]
      rw [if_pos (by exact_mod_cast Nat.zero_le xs'.length)]
      simp only [List.length_cons]
      push_cast
      ring
    · simp only [if_neg h]
      rw [pyRfind]

/-- C4: for every recipe-line string, the emitted recipe line equals the
input with at most one trailing tab removed and then at most one trailing
newline removed (tab checked first on the final character, then newline on
the new final character), and no other characters change. -/
theorem trimRecipeLine_eq_specTrimRecipe (s : List Char) :
    trimRecipeLine s = specTrimRecipe s := by
  induction s using List.reverseRecOn with
  | nil => rfl
  | append_singleton xs a _ =>
    by_cases ht : a = '\t'
    · subst ht
      have hc1 : pyRfind (xs ++ ['\t']) '\t' + 1 + (0 : Int) = ((xs ++ ['\t']).length : Int) := by
        rw [pyRfind_concat, if_pos rfl]
        simp
      rcases xs.eq_nil_or_concat with hxs | ⟨ys, b, hxs⟩
      · subst hxs
        decide
      · rw [List.concat_eq_append] at hxs
        subst hxs
        have hlenN : (ys ++ [b] ++ ['\t']).length = ys.length + 2 := by simp
        simp only [trimRecipeLine, specTrimRecipe, if_pos hc1]
        by_cases hb : b = '\n'
        · subst hb
          have hc2 : pyRfind (ys ++ ['\n'] ++ ['\t']) '\n' + 1 + ((0 : Int) + 1) =
              ((ys ++ ['\n'] ++ ['\t']).length : Int) := by
            rw [pyRfind_concat, if_neg (by decide), pyRfind_concat, if_pos rfl, hlenN]
            push_cast
            ring
          simp only [if_pos hc2, pySliceTo]
          rw [if_neg (by rw [hlenN]; push_cast; omega)]
          have he : ((((ys ++ ['\n'] ++ ['\t']).length : Nat) : Int) - (0 + 1 + 1)).toNat
              = ys.length := by
            rw [hlenN]
            omega
          rw [he]
          rw [List.getLast?_concat, if_pos rfl, List.dropLast_concat]
          rw [List.getLast?_concat, if_pos rfl, List.dropLast_concat]
          rw [List.append_assoc]
          exact List.take_left ys _
        · have hc2 : ¬(pyRfind (ys ++ [b] ++ ['\t']) '\n' + 1 + ((0 : Int) + 1) =
              ((ys ++ [b] ++ ['\t']).length : Int)) := by
            rw [pyRfind_concat, if_neg (by decide), pyRfind_concat, if_neg hb, hlenN]
            have := pyRfind_lt_length ys '\n'
            push_cast
            omega
          simp only [if_neg hc2, pySliceTo]
          rw [if_neg (by rw [hlenN]; push_cast; omega)]
          have he : ((((ys ++ [b] ++ ['\t']).length : Nat) : Int) - (0 + 1)).toNat
              = ys.length + 1 := by
            rw [hlenN]
            omega
          rw [he]
          rw [List.getLast?_concat, if_pos rfl, List.dropLast_concat]
          rw [List.getLast?_concat, if_neg (by simp [hb])]
          have hlen : ys.length + 1 = (ys ++ [b]).length := by simp
          rw [hlen]
          exact List.take_left (ys ++ [b]) _
    · have hlenN : (xs ++ [a]).length = xs.length + 1 := by simp
      have hc1 : ¬(pyRfind (xs ++ [a]) '\t' + 1 + (0 : Int) = ((xs ++ [a]).length : Int)) := by
        rw [pyRfind_concat, if_neg ht, hlenN]
        have := pyRfind_lt_length xs '\t'
        push_cast
        omega
      simp only [trimRecipeLine, specTrimRecipe, if_neg hc1]
      by_cases hn : a = '\n'
      · subst hn
        have hc2 : pyRfind (xs ++ ['\n']) '\n' + 1 + (0 : Int) =
            ((xs ++ ['\n']).length : Int) := by
          rw [pyRfind_concat, if_pos rfl, hlenN]
          push_cast
          ring
        simp only [if_pos hc2, pySliceTo]
        rw [if_neg (by rw [hlenN]; push_cast; omega)]
        have he : ((((xs ++ ['\n']).length : Nat) : Int) - (0 + 1)).toNat = xs.length := by
          rw [hlenN]
          omega
        rw [he]
        rw [List.getLast?_concat, if_neg (show ¬(some '\n' = some '\t') by decide)]
        rw [List.getLast?_concat, if_pos rfl, List.dropLast_concat]
        exact List.take_left xs _
      · have hc2 : ¬(pyRfind (xs ++ [a]) '\n' + 1 + (0 : Int) = ((xs ++ [a]).length : Int)) := by
          rw [pyRfind_concat, if_neg hn, hlenN]
          have := pyRfind_lt_length xs '\n'
          push_cast
          omega
        simp only [if_neg hc2, pySliceTo]
        rw [if_neg (by rw [hlenN]; push_cast; omega)]
        have he : ((((xs ++ [a]).length : Nat) : Int) - 0).toNat = (xs ++ [a]).length := by
          omega
        rw [he]
        rw [List.getLast?_concat, if_neg (show ¬(some a = some '\t') by simp [ht])]
        rw [List.getLast?_concat, if_neg (show ¬(some a = some '\n') by simp [hn])]
        exact List.take_length _

/-! ## C2: locator priority table -/

theorem dictLookup_insert (m : List (String × Nat)) (k n : String) (v : Nat) :
    dictLookup (dictInsert m k v) n = if n = k then some v else dictLookup m n := by
  by_cases hn : n = k
  · subst hn
    rw [dictInsert, dictLookup, List.find?_cons_of_pos _ (by simp), if_pos rfl]
    rfl
  · rw [if_neg hn, dictInsert, dictLookup,
      List.find?_cons_of_neg _ (by simp [Ne.symm hn])]
    rfl

theorem dictLookup_setPrioritiesGo (l : List String) (hnd : l.Nodup) (index : Nat)
    (m : List (String × Nat)) (n : String) :
    dictLookup (setPrioritiesGo l index m) n =
      if n ∈ l then some (index - l.indexOf n) else dictLookup m n := by
  induction l generalizing index m with
  | nil => simp [setPrioritiesGo]
  | cons name rest ih =>
    rw [setPrioritiesGo]
    rcases List.nodup_cons.mp hnd with ⟨hnm, hrest⟩
    by_cases hn : n = name
    · subst hn
      rw [ih hrest, if_neg hnm, if_pos (List.mem_cons_self _ _)]
      rw [dictLookup_insert, if_pos rfl]
      simp [List.indexOf_cons_self]
    · rw [ih hrest]
      by_cases hmem : n ∈ rest
      · rw [if_pos hmem, if_pos (List.mem_cons_of_mem _ hmem)]
        rw [List.indexOf_cons_ne _ (fun hh => hn hh.symm)]
        congr 1
        omega
      · rw [if_neg hmem, if_neg (by simp [hn, hmem])]
        rw [dictLookup_insert, if_neg hn]

theorem dictLookup_setFilenamePriorities (filenames : List String) (hnd : filenames.Nodup)
    (n : String) :
    dictLookup (setFilenamePriorities filenames) n =
      if n ∈ filenames then some (filenames.length - filenames.indexOf n) else none := by
  rw [setFilenamePriorities, dictLookup_setPrioritiesGo filenames hnd]
  rfl

theorem getBestNameGo_spec (filenames : List String) (hnd : filenames.Nodup)
    (ls : List String) :
    ∀ best bp,
      (best = none → bp = 0) →
      (∀ pb, best = some pb → pb ∈ filenames ∧
        bp = filenames.length - filenames.indexOf pb) →
      (getBestNameGo (setFilenamePriorities filenames) ls best bp = none →
        best = none ∧ ∀ m ∈ ls, m ∉ filenames) ∧
      (∀ n, getBestNameGo (setFilenamePriorities filenames) ls best bp = some n →
        n ∈ filenames ∧ (n ∈ ls ∨ best = some n) ∧
        (∀ m, m ∈ ls → m ∈ filenames →
          filenames.length - filenames.indexOf m ≤
            filenames.length - filenames.indexOf n) ∧
        (∀ pb, best = some pb →
          filenames.length - filenames.indexOf pb ≤
            filenames.length - filenames.indexOf n)) := by
  induction ls with
  | nil =>
    intro best bp hnone hsome
    constructor
    · intro hr
      rw [getBestNameGo] at hr
      exact ⟨hr, by simp⟩
    · intro n hr
      rw [getBestNameGo] at hr
      refine ⟨(hsome n hr).1, Or.inr hr, by simp, ?_⟩
      intro pb hpb
      rw [hpb] at hr
      cases hr
      exact le_refl _
  | cons name rest ih =>
    intro best bp hnone hsome
    rw [show getBestNameGo (setFilenamePriorities filenames) (name :: rest) best bp =
      (match dictLookup (setFilenamePriorities filenames) name with
       | some p =>
         if bp < p then getBestNameGo (setFilenamePriorities filenames) rest (some name) p
         else getBestNameGo (setFilenamePriorities filenames) rest best bp
       | none => getBestNameGo (setFilenamePriorities filenames) rest best bp) from rfl]
    rw [dictLookup_setFilenamePriorities filenames hnd name]
    by_cases hmem : name ∈ filenames
    · rw [if_pos hmem]
      simp only []
      by_cases hlt : bp < filenames.length - filenames.indexOf name
      · rw [if_pos hlt]
        have hres := ih (some name) (filenames.length - filenames.indexOf name)
          (by intro hh; cases hh) (by intro pb hpb; cases hpb; exact ⟨hmem, rfl⟩)
        constructor
        · intro hr
          exact absurd ((hres.1 hr).1) (by intro hh; cases hh)
        · intro n hr
          rcases hres.2 n hr with ⟨hnf, hloc, hmax, hbest⟩
          refine ⟨hnf, ?_, ?_, ?_⟩
          · rcases hloc with h | h
            · exact Or.inl (List.mem_cons_of_mem _ h)
            · cases h
              exact Or.inl (List.mem_cons_self _ _)
          · intro m hm hmf
            rcases List.mem_cons.mp hm with h | h
            · subst h
              exact hbest m rfl
            · exact hmax m h hmf
          · intro pb hpb
            have h1 := (hsome pb hpb).2
            have h2 := hbest name rfl
            omega
      · rw [if_neg hlt]
        have hres := ih best bp hnone hsome
        constructor
        · intro hr
          rcases hres.1 hr with ⟨hb, hall⟩
          exact absurd (hnone hb ▸ (Nat.not_lt.mp hlt))
            (by
              have hidx := List.indexOf_lt_length.mpr hmem
              omega)
        · intro n hr
          rcases hres.2 n hr with ⟨hnf, hloc, hmax, hbest⟩
          refine ⟨hnf, ?_, ?_, hbest⟩
          · rcases hloc with h | h
            · exact Or.inl (List.mem_cons_of_mem _ h)
            · exact Or.inr h
          · intro m hm hmf
            rcases List.mem_cons.mp hm with h | h
            · subst h
              rcases hloc with h2 | h2
              · have hb : ∃ pb, best = some pb := by
                  cases hbc : best with
                  | none =>
                    have := hnone hbc
                    have hidx := List.indexOf_lt_length.mpr hmem
                    omega
                  | some pb => exact ⟨pb, rfl⟩
                rcases hb with ⟨pb, hpb⟩
                have h3 := hbest pb hpb
                have h4 := (hsome pb hpb).2
                omega
              · have h3 := (hsome n h2).2
                omega
            · exact hmax m h hmf
    · rw [if_neg hmem]
      simp only []
      have hres := ih best bp hnone hsome
      constructor
      · intro hr
        rcases hres.1 hr with ⟨hb, hall⟩
        refine ⟨hb, ?_⟩
        intro m hm
        rcases List.mem_cons.mp hm with h | h
        · subst h
          exact hmem
        · exact hall m h
      · intro n hr
        rcases hres.2 n hr with ⟨hnf, hloc, hmax, hbest⟩
        refine ⟨hnf, ?_, ?_, hbest⟩
        · rcases hloc with h | h
          · exact Or.inl (List.mem_cons_of_mem _ h)
          · exact Or.inr h
        · intro m hm hmf
          rcases List.mem_cons.mp hm with h | h
          · subst h
            exact absurd hmf hmem
          · exact hmax m h hmf

/-- C2 counterexample: with priority list
`[does_not_exist, Makefile, GNUmakefile]` the code gives `Makefile`
priority 2 and `GNUmakefile` priority 1 — the name appearing earlier has
the higher priority — and `_get_best_name` on a directory containing both
returns `Makefile`, not `GNUmakefile` as the claim states. -/
theorem getBestName_c2_counterexample :
    dictLookup (setFilenamePriorities ["does_not_exist", "Makefile", "GNUmakefile"])
        "Makefile" = some 2 ∧
    dictLookup (setFilenamePriorities ["does_not_exist", "Makefile", "GNUmakefile"])
        "GNUmakefile" = some 1 ∧
    getBestName (setFilenamePriorities ["does_not_exist", "Makefile", "GNUmakefile"])
        ["Makefile", "GNUmakefile"] = some "Makefile" := by
  decide

/-- C2 (amended): in the priority table a filename appearing EARLIER in
the configured list has the higher priority; for every directory listing,
`_get_best_name` picks the configured name appearing EARLIEST in the list
among those present (and returns a name whenever one is present); in
particular, with priority list `[does_not_exist, Makefile, GNUmakefile]` a
directory containing both `Makefile` and `GNUmakefile` yields `Makefile`. -/
theorem getBestName_c2_amended (filenames : List String) (hnd : filenames.Nodup)
    (ls : List String) :
    (∀ i j (hij : i < j) (hj : j < filenames.length),
      ∃ pi pj,
        dictLookup (setFilenamePriorities filenames)
          (filenames.get ⟨i, lt_trans hij hj⟩) = some pi ∧
        dictLookup (setFilenamePriorities filenames)
          (filenames.get ⟨j, hj⟩) = some pj ∧ pj < pi) ∧
    (∀ n, getBestName (setFilenamePriorities filenames) ls = some n →
      n ∈ ls ∧ n ∈ filenames ∧
        ∀ m, m ∈ ls → m ∈ filenames →
          filenames.indexOf n ≤ filenames.indexOf m) ∧
    ((∃ m, m ∈ ls ∧ m ∈ filenames) →
      ∃ n, getBestName (setFilenamePriorities filenames) ls = some n) ∧
    getBestName (setFilenamePriorities ["does_not_exist", "Makefile", "GNUmakefile"])
      ["Makefile", "GNUmakefile"] = some "Makefile" := by
  have hspec := getBestNameGo_spec filenames hnd ls none 0 (fun _ => rfl)
    (fun pb hpb => by cases hpb)
  refine ⟨?_, ?_, ?_, by decide⟩
  · intro i j hij hj
    have hi := lt_trans hij hj
    have hmi : filenames.get ⟨i, hi⟩ ∈ filenames := List.get_mem _ _ _
    have hmj : filenames.get ⟨j, hj⟩ ∈ filenames := List.get_mem _ _ _
    refine ⟨filenames.length - i, filenames.length - j, ?_, ?_, by omega⟩
    · rw [dictLookup_setFilenamePriorities filenames hnd, if_pos hmi,
        List.get_indexOf hnd]
    · rw [dictLookup_setFilenamePriorities filenames hnd, if_pos hmj,
        List.get_indexOf hnd]
  · intro n hr
    rcases hspec.2 n hr with ⟨hnf, hloc, hmax, _⟩
    refine ⟨?_, hnf, ?_⟩
    · rcases hloc with h | h
      · exact h
      · cases h
    · intro m hm hmf
      have h1 := hmax m hm hmf
      have h2 := List.indexOf_lt_length.mpr hmf
      have h3 := List.indexOf_lt_length.mpr hnf
      omega
  · intro hex
    cases hr : getBestName (setFilenamePriorities filenames) ls with
    | none =>
      rcases hex with ⟨m, hm, hmf⟩
      exact absurd hmf ((hspec.1 hr).2 m hm)
    | some n => exact ⟨n, rfl⟩

/-- C2 witness: the amended theorem applied to the concrete priority list
and directory listing. -/
theorem getBestName_c2_witness :
    getBestName (setFilenamePriorities ["does_not_exist", "Makefile", "GNUmakefile"])
      ["Makefile", "GNUmakefile"] = some "Makefile" :=
  (getBestName_c2_amended ["does_not_exist", "Makefile", "GNUmakefile"]
    (by decide) ["Makefile", "GNUmakefile"]).2.2.2

/-! ## C8: `Line` construction -/

theorem specStripTerminator_cons_of_not_break (c : Char) (rest : List Char)
    (hc : isLineBreakChar c = false) :
    specStripTerminator (c :: rest) = c :: specStripTerminator rest := by
  cases rest with
  | nil => simp [specStripTerminator, hc]
  | cons d rest2 =>
    rw [specStripTerminator]
    rw [if_neg]
    intro hcontra
    rw [hcontra.1] at hc
    exact absurd hc (by decide)

theorem pySplitlinesGo_ne_nil (s : List Char) :
    ∀ acc, s ≠ [] → pySplitlinesGo acc s ≠ [] := by
  induction s with
  | nil => intro acc h; exact absurd rfl h
  | cons c rest ih =>
    intro acc _
    cases rest with
    | nil =>
      rw [pySplitlinesGo]
      split <;> simp
    | cons d rest2 =>
      rw [pySplitlinesGo]
      split
      · simp
      · split
        · simp
        · exact ih (c :: acc) (by simp)

theorem pySplitlinesGo_two_le (s : List Char) (hs : hasInteriorBreak s = true) :
    ∀ acc, 2 ≤ (pySplitlinesGo acc s).length := by
  induction s with
  | nil => simp [hasInteriorBreak] at hs
  | cons c rest ih =>
    intro acc
    cases rest with
    | nil => simp [hasInteriorBreak] at hs
    | cons d rest2 =>
      rw [pySplitlinesGo]
      rw [hasInteriorBreak] at hs
      split
      · rename_i hp
        rw [if_pos hp] at hs
        have htail : rest2 ≠ [] := by
          intro hh
          rw [hh] at hs
          simp at hs
        have h1 := pySplitlinesGo_ne_nil rest2 [] htail
        have h2 : 1 ≤ (pySplitlinesGo [] rest2).length := by
          cases hq : pySplitlinesGo [] rest2 with
          | nil => exact absurd hq h1
          | cons _ _ => simp
        simp only [List.length_cons]
        omega
      · rename_i hp
        rw [if_neg hp] at hs
        split
        · have h1 := pySplitlinesGo_ne_nil (d :: rest2) [] (by simp)
          have h2 : 1 ≤ (pySplitlinesGo [] (d :: rest2)).length := by
            cases hq : pySplitlinesGo [] (d :: rest2) with
            | nil => exact absurd hq h1
            | cons _ _ => simp
          simp only [List.length_cons]
          omega
        · rename_i hbr
          rw [if_neg hbr] at hs
          exact ih hs (c :: acc)

theorem pySplitlinesGo_no_interior (s : List Char) (hs : hasInteriorBreak s = false) :
    ∀ acc, pySplitlinesGo acc s =
      if acc.isEmpty && s.isEmpty then [] else [acc.reverse ++ specStripTerminator s] := by
  induction s with
  | nil =>
    intro acc
    rw [pySplitlinesGo]
    cases hacc : acc.isEmpty
    · simp [hacc, specStripTerminator]
    · simp [hacc, specStripTerminator]
  | cons c rest ih =>
    intro acc
    cases rest with
    | nil =>
      rw [pySplitlinesGo]
      rw [specStripTerminator]
      split
      · rename_i hbr
        simp [hbr]
      · rename_i hbr
        simp only [Bool.not_eq_true] at hbr
        simp [hbr]
    | cons d rest2 =>
      rw [pySplitlinesGo]
      rw [hasInteriorBreak] at hs
      split
      · rename_i hp
        rw [if_pos hp] at hs
        have htail : rest2 = [] := by
          cases hq : rest2 with
          | nil => rfl
          | cons _ _ =>
            rw [hq] at hs
            simp at hs
        subst htail
        rw [hp.1, hp.2]
        rw [pySplitlinesGo]
        have hstrip : specStripTerminator ('\r' :: '\n' :: []) = [] := by
          rw [specStripTerminator]
          simp
        simp [hstrip]
      · rename_i hp
        rw [if_neg hp] at hs
        split
        · rename_i hbr
          rw [if_pos hbr] at hs
          cases hs
        · rename_i hbr
          rw [if_neg hbr] at hs
          rw [ih hs (c :: acc)]
          have hc : isLineBreakChar c = false := by
            cases hq : isLineBreakChar c
            · rfl
            · exact absurd hq hbr
          rw [specStripTerminator_cons_of_not_break c (d :: rest2) hc]
          simp

/-- C8 counterexample: `Line.make("a\nb")` raises the malformed-line error
although the input contains exactly one line break (not more than one). -/
theorem lineMake_c8_counterexample :
    countLineBreaks ('a' :: '\n' :: 'b' :: []) = 1 ∧
    lineMake ('a' :: '\n' :: 'b' :: []) = .error () := by
  constructor
  · decide
  · rfl

/-- C8 (amended): `Line.make` fails with the malformed-line error exactly
when the string contains a line break followed by at least one further
character (i.e. it splits into two or more lines); for every other string
it succeeds, and the constructed content is the input with its trailing
line terminator (if any) removed. -/
theorem lineMake_c8_amended (s : List Char) :
    (lineMake s = .error () ↔ hasInteriorBreak s = true) ∧
    (hasInteriorBreak s = false → lineMake s = .ok (specStripTerminator s)) := by
  have hok : hasInteriorBreak s = false → lineMake s = .ok (specStripTerminator s) := by
    intro hs
    rw [lineMake, pySplitlines, pySplitlinesGo_no_interior s hs []]
    cases hse : s.isEmpty
    · simp only [List.isEmpty_nil, Bool.true_and, hse, Bool.false_eq_true, if_neg,
        List.reverse_nil, List.nil_append]
      rfl
    · have : s = [] := by
        cases s with
        | nil => rfl
        | cons _ _ => simp at hse
      rw [this]
      rfl
  constructor
  · constructor
    · intro herr
      cases hq : hasInteriorBreak s with
      | false =>
        rw [hok hq] at herr
        cases herr
      | true => rfl
    · intro hs
      have h2 := pySplitlinesGo_two_le s hs []
      rw [lineMake, pySplitlines]
      rcases hq : pySplitlinesGo [] s with _ | ⟨a, _ | ⟨b, t⟩⟩
      · rw [hq] at h2
        simp at h2
      · rw [hq] at h2
        simp at h2
      · rfl
  · exact hok

/-! ## C5: file-section filter temporal properties -/

theorem fsRun_append_singleton (ws : List String) (l : String) (st : FsState) :
    fsRun st (ws ++ [l]) = fsStep (fsRun st ws) l := by
  simp [fsRun, List.foldl_append]

theorem fsStep_finished (l : String) : fsStep FsState.finished l = FsState.finished := by
  unfold fsStep
  split
  · rfl
  · split <;> rfl

theorem fsRun_finished (ws : List String) : fsRun FsState.finished ws = FsState.finished := by
  induction ws with
  | nil => rfl
  | cons w ws ih =>
    show fsRun (fsStep FsState.finished w) ws = FsState.finished
    rw [fsStep_finished]
    exact ih

theorem fsRun_armed_mem (ws : List String) :
    fsRun FsState.noPrinting ws = FsState.beforePrinting ∨
      fsRun FsState.noPrinting ws = FsState.printing →
    fsStartLine ∈ ws := by
  induction ws using List.reverseRecOn with
  | nil =>
    intro h
    rcases h with h | h <;> simp [fsRun] at h
  | append_singleton ws l ih =>
    intro h
    rw [fsRun_append_singleton] at h
    by_cases hl1 : l = fsStartLine
    · subst hl1
      exact List.mem_append.mpr (Or.inr (by simp))
    · by_cases hl2 : l = fsEndLine
      · exfalso
        subst hl2
        unfold fsStep at h
        rw [if_neg hl1, if_pos rfl] at h
        rcases hst : fsRun FsState.noPrinting ws with _ | _ | _ | _ <;>
          rw [hst] at h <;> simp at h
      · unfold fsStep at h
        rw [if_neg hl1, if_neg hl2] at h
        rcases hst : fsRun FsState.noPrinting ws with _ | _ | _ | _ <;> rw [hst] at h
        · simp at h
        · exact List.mem_append.mpr (Or.inl (ih (Or.inl hst)))
        · exact List.mem_append.mpr (Or.inl (ih (Or.inr hst)))
        · simp at h

/-- C5: the file-section filter forwards a line only strictly after a
`# Files` start-anchor line has been received (in particular the anchor
that opens the section is never itself forwarded), and once the
`# files hash-table stats:` end anchor is received while the filter is
forwarding, no line of any continuation is ever forwarded again — a later
`# Files` never reopens the filter.  A line is "forwarded" when the
condition's verdict after receiving it is true, which is exactly how
`ConditionFilter` uses it (first conjunct). -/
theorem fileSectionFilter_c5 :
    (∀ (st : FsState) (x : String) (xs : List String),
      conditionFilter fsStep fsCond st (x :: xs) =
        (if fsCond (fsStep st x) then [x] else []) ++
          conditionFilter fsStep fsCond (fsStep st x) xs) ∧
    (∀ (ys : List String) (l : String),
      fsCond (fsRun FsState.noPrinting (ys ++ [l])) = true → fsStartLine ∈ ys) ∧
    (∀ (ys ws : List String), fsRun FsState.noPrinting ys = FsState.printing →
      fsCond (fsRun FsState.noPrinting (ys ++ fsEndLine :: ws)) = false) := by
  refine ⟨?_, ?_, ?_⟩
  · intro st x xs
    rw [conditionFilter]
    split <;> simp
  · intro ys l h
    rw [fsRun_append_singleton] at h
    have hy : fsStep (fsRun FsState.noPrinting ys) l = FsState.printing := by
      rcases hq : fsStep (fsRun FsState.noPrinting ys) l with _ | _ | _ | _ <;>
        rw [hq] at h
      · simp [fsCond] at h
      · simp [fsCond] at h
      · simp [fsCond] at h
    by_cases hl1 : l = fsStartLine
    · subst hl1
      unfold fsStep at hy
      rw [if_pos rfl] at hy
      rcases hst : fsRun FsState.noPrinting ys with _ | _ | _ | _ <;> rw [hst] at hy
      · simp at hy
      · exact fsRun_armed_mem ys (Or.inl hst)
      · exact fsRun_armed_mem ys (Or.inr hst)
      · simp at hy
    · by_cases hl2 : l = fsEndLine
      · exfalso
        subst hl2
        unfold fsStep at hy
        rw [if_neg hl1, if_pos rfl] at hy
        rcases hst : fsRun FsState.noPrinting ys with _ | _ | _ | _ <;>
          rw [hst] at hy <;> simp at hy
      · unfold fsStep at hy
        rw [if_neg hl1, if_neg hl2] at hy
        rcases hst : fsRun FsState.noPrinting ys with _ | _ | _ | _ <;> rw [hst] at hy
        · simp at hy
        · exact fsRun_armed_mem ys (Or.inl hst)
        · exact fsRun_armed_mem ys (Or.inr hst)
        · simp at hy
  · intro ys ws hy
    have hrun : fsRun FsState.noPrinting (ys ++ fsEndLine :: ws) =
        fsRun FsState.finished ws := by
      show List.foldl fsStep FsState.noPrinting (ys ++ fsEndLine :: ws) = _
      rw [List.foldl_append]
      show fsRun (fsStep (fsRun FsState.noPrinting ys) fsEndLine) ws = _
      rw [hy]
      congr 1
    rw [hrun, fsRun_finished]
    rfl

/-- C5 witness: concrete run for both conjuncts — the line "x" forwarded
inside the section is preceded by the anchor, and after the end anchor a
later "# Files" line is not forwarded. -/
theorem fileSectionFilter_c5_witness :
    ("# Files" ∈ (["# Files"] : List String)) ∧
    fsCond (fsRun FsState.noPrinting
      (["# Files", "x"] ++ fsEndLine :: ["# Files", "z"])) = false :=
  ⟨fileSectionFilter_c5.2.1 ["# Files"] "x" (by decide),
   fileSectionFilter_c5.2.2 ["# Files", "x"] ["# Files", "z"] (by decide)⟩

/-! ## C6 and C7: the target emitter -/

theorem getNextContext_nil (s : EmitterState) (h : s.decls = []) :
    getNextContext s = .ok (emitterToE s) := by
  unfold getNextContext
  rw [h]

theorem getNextContext_cancel (s : EmitterState) (rest : List DeclResult)
    (h : s.decls = Except.error ParseSignal.parseCancelled :: rest) :
    getNextContext s = .ok (emitterToE { s with decls := rest }) := by
  unfold getNextContext
  rw [h]

theorem getNextContext_other (s : EmitterState) (rest : List DeclResult)
    (h : s.decls = Except.error ParseSignal.otherFailure :: rest) :
    getNextContext s = .error ParseSignal.otherFailure := by
  unfold getNextContext
  rw [h]

theorem getNextContext_decl (s : EmitterState) (ctx : Option RuleCtx)
    (rest : List DeclResult) (h : s.decls = Except.ok ctx :: rest) :
    getNextContext s = .ok { s with decls := rest, context := ctx } := by
  unfold getNextContext
  rw [h]

theorem gnnec_nil (s : EmitterState) (h : s.decls = []) :
    getNextNonEmptyContext s = .ok (emitterToE s) := by
  unfold getNextNonEmptyContext
  rw [h]
  rw [getNextNonEmptyContextGo, getNextContext_nil s h]
  simp [emitterToE]

theorem gnnec_cancel (s : EmitterState) (rest : List DeclResult)
    (h : s.decls = Except.error ParseSignal.parseCancelled :: rest) :
    getNextNonEmptyContext s = .ok (emitterToE { s with decls := rest }) := by
  unfold getNextNonEmptyContext
  rw [h]
  rw [getNextNonEmptyContextGo, getNextContext_cancel s rest h]
  simp [emitterToE]

theorem gnnec_other (s : EmitterState) (rest : List DeclResult)
    (h : s.decls = Except.error ParseSignal.otherFailure :: rest) :
    getNextNonEmptyContext s = .error ParseSignal.otherFailure := by
  unfold getNextNonEmptyContext
  rw [h]
  rw [getNextNonEmptyContextGo, getNextContext_other s rest h]

theorem gnnec_decl_some (s : EmitterState) (c : RuleCtx) (rest : List DeclResult)
    (h : s.decls = Except.ok (some c) :: rest) :
    getNextNonEmptyContext s = .ok { s with decls := rest, context := some c } := by
  unfold getNextNonEmptyContext
  rw [h]
  rw [getNextNonEmptyContextGo, getNextContext_decl s (some c) rest h]
  simp

theorem gnnec_decl_none (s : EmitterState) (rest : List DeclResult)
    (h : s.decls = Except.ok none :: rest) (hend : s.isAtEnd = false) :
    getNextNonEmptyContext s =
      getNextNonEmptyContext { s with decls := rest, context := none } := by
  unfold getNextNonEmptyContext
  rw [h]
  rw [getNextNonEmptyContextGo, getNextContext_decl s none rest h]
  simp [hend]

theorem emitterTrace_atEnd (fuel : Nat) (s : EmitterState) (h : s.isAtEnd = true) :
    emitterTrace fuel s = .ok [] := by
  cases fuel with
  | zero => rfl
  | succ n =>
    rw [emitterTrace, if_pos h]

theorem emitterTrace_succ_pull (n : Nat) (s : EmitterState)
    (hend : s.isAtEnd = false) (hstart : emitterIsAtStart s = true) :
    emitterTrace (n + 1) s = emitterPullTrace n s := by
  rw [emitterTrace, if_neg (by rw [hend]; exact Bool.false_ne_true)]
  rw [emitterPullTrace]
  rw [show emitterMoveToNext s = getNextTarget s from by
    unfold emitterMoveToNext
    rw [if_pos hstart]]

theorem emitterTrace_succ_lastIndex (n : Nat) (s : EmitterState)
    (hend : s.isAtEnd = false) (htgt : s.target.isSome = true)
    (hidx : s.index + 1 = emitterCurrentLength s) :
    emitterTrace (n + 1) s = emitterPullTrace n { s with index := 0 } := by
  rw [emitterTrace, if_neg (by rw [hend]; exact Bool.false_ne_true)]
  rw [emitterPullTrace]
  rw [show emitterMoveToNext s = getNextTarget { s with index := 0 } from by
    unfold emitterMoveToNext
    rw [if_neg (by
      unfold emitterIsAtStart emitterHasCurrent
      rw [htgt]
      simp)]
    rw [if_neg (by omega)]]

theorem emitterTrace_succ_midIndex (n : Nat) (s : EmitterState)
    (hend : s.isAtEnd = false) (htgt : s.target.isSome = true)
    (hidx : s.index + 1 ≠ emitterCurrentLength s) :
    emitterTrace (n + 1) s =
      match (generateTarget { s with index := s.index + 1 }).target with
      | some t =>
        (emitterTrace n (generateTarget { s with index := s.index + 1 })).map (t :: ·)
      | none => emitterTrace n (generateTarget { s with index := s.index + 1 }) := by
  rw [emitterTrace, if_neg (by rw [hend]; exact Bool.false_ne_true)]
  rw [show emitterMoveToNext s = .ok (generateTarget { s with index := s.index + 1 }) from by
    unfold emitterMoveToNext
    rw [if_neg (by
      unfold emitterIsAtStart emitterHasCurrent
      rw [htgt]
      simp)]
    rw [if_pos hidx]]

theorem buildTarget_attach (c : RuleCtx) (mk : Option MakefileDesc) (i : Nat)
    (h : i < c.targets.length) :
    (buildTarget c i).map (fun t => { t with file := mk }) = some (expectedTarget c mk i) := by
  unfold buildTarget expectedTarget
  rw [List.get?_eq_get h]
  simp

theorem totalTargets_le_weight (decls : List DeclResult) :
    totalTargets decls ≤ (decls.map declWeight).sum := by
  induction decls with
  | nil => simp [totalTargets]
  | cons d rest ih =>
    rw [totalTargets] at ih ⊢
    simp only [List.map_cons, List.sum_cons]
    rcases d with e | oc
    · simp [declWeight]
      omega
    · rcases oc with _ | c
      · simp [declWeight]
        omega
      · simp [declWeight]
        omega

theorem emitter_pull_trace (decls : List DeclResult)
    (hok : ∀ d ∈ decls, ∃ oc, d = Except.ok oc)
    (hne : ∀ c : RuleCtx, Except.ok (some c) ∈ decls → c.targets ≠ []) :
    ∀ (mk : Option MakefileDesc) (tgt : Option Target) (ctx : Option RuleCtx) (fuel : Nat),
      totalTargets decls ≤ fuel →
      emitterPullTrace fuel ⟨decls, mk, 0, tgt, ctx, false⟩ =
        .ok (expectedTargets decls mk) := by
  induction decls with
  | nil =>
    intro mk tgt ctx fuel _
    rw [emitterPullTrace]
    rw [show getNextTarget ⟨[], mk, 0, tgt, ctx, false⟩ =
        .ok (emitterToE ⟨[], mk, 0, tgt, ctx, false⟩) from by
      unfold getNextTarget
      rw [gnnec_nil _ rfl]
      simp [emitterToE]]
    show emitterTrace fuel (emitterToE ⟨[], mk, 0, tgt, ctx, false⟩) = _
    rw [emitterTrace_atEnd fuel _ rfl]
    rfl
  | cons d rest ih =>
    intro mk tgt ctx fuel hfuel
    have hokd := hok d (List.mem_cons_self d rest)
    rcases hokd with ⟨oc, hd⟩
    subst hd
    have hokr : ∀ x ∈ rest, ∃ oc, x = Except.ok oc :=
      fun x hx => hok x (List.mem_cons_of_mem _ hx)
    have hner : ∀ c : RuleCtx, Except.ok (some c) ∈ rest → c.targets ≠ [] :=
      fun c hc => hne c (List.mem_cons_of_mem _ hc)
    rcases oc with _ | c
    · -- declaration produced a context with no makefileRule child: skipped
      have hgt : getNextTarget ⟨Except.ok none :: rest, mk, 0, tgt, ctx, false⟩ =
          getNextTarget ⟨rest, mk, 0, tgt, none, false⟩ := by
        unfold getNextTarget
        rw [gnnec_decl_none _ rest rfl rfl]
      have hfuel2 : totalTargets rest ≤ fuel := by
        rw [totalTargets] at hfuel ⊢
        simp only [List.map_cons, List.sum_cons] at hfuel
        omega
      have hres := ih hokr hner mk tgt none fuel hfuel2
      have hexp : expectedTargets (Except.ok none :: rest) mk = expectedTargets rest mk := by
        simp [expectedTargets]
      rw [hexp]
      rw [show emitterPullTrace fuel ⟨Except.ok none :: rest, mk, 0, tgt, ctx, false⟩ =
          emitterPullTrace fuel ⟨rest, mk, 0, tgt, none, false⟩ from by
        unfold emitterPullTrace
        rw [hgt]]
      exact hres
    · -- declaration produced a makefile rule context
      have hnec : c.targets ≠ [] := hne c (List.mem_cons_self _ _)
      have hn : 0 < c.targets.length := List.length_pos.mpr hnec
      have htot : totalTargets (Except.ok (some c) :: rest) =
          c.targets.length + totalTargets rest := by
        rw [totalTargets, totalTargets]
        simp
      -- the inner loop over the targets of context c
      have hQ : ∀ (k i : Nat) (tgt' : Target) (fuel' : Nat),
          i + k + 1 = c.targets.length →
          k + totalTargets rest + 1 ≤ fuel' →
          emitterTrace fuel' ⟨rest, mk, i, some tgt', some c, false⟩ =
            .ok ((List.range' (i + 1) k).map (expectedTarget c mk) ++
              expectedTargets rest mk) := by
        intro k
        induction k with
        | zero =>
          intro i tgt' fuel' hik hf
          rcases fuel' with _ | f
          · omega
          have hcl : emitterCurrentLength ⟨rest, mk, i, some tgt', some c, false⟩ =
              c.targets.length := by
            unfold emitterCurrentLength emitterIsAtStart emitterHasCurrent
            simp
          rw [emitterTrace_succ_lastIndex f
            ⟨rest, mk, i, some tgt', some c, false⟩ rfl rfl (by
              rw [hcl]
              show i + 1 = c.targets.length
              omega)]
          have hres := ih hokr hner mk (some tgt') (some c) f (by omega)
          rw [show ({ (⟨rest, mk, i, some tgt', some c, false⟩ : EmitterState) with
              index := 0 }) = (⟨rest, mk, 0, some tgt', some c, false⟩ : EmitterState)
            from rfl]
          rw [hres]
          simp [List.range']
        | succ k ihk =>
          intro i tgt' fuel' hik hf
          rcases fuel' with _ | f
          · omega
          have hcl : emitterCurrentLength ⟨rest, mk, i, some tgt', some c, false⟩ =
              c.targets.length := by
            unfold emitterCurrentLength emitterIsAtStart emitterHasCurrent
            simp
          rw [emitterTrace_succ_midIndex f
            ⟨rest, mk, i, some tgt', some c, false⟩ rfl rfl (by
              rw [hcl]
              show ¬(i + 1 = c.targets.length)
              omega)]
          have hgen : generateTarget ({ (⟨rest, mk, i, some tgt', some c, false⟩ :
              EmitterState) with index := i + 1 }) =
              ⟨rest, mk, i + 1, some (expectedTarget c mk (i + 1)), some c, false⟩ := by
            unfold generateTarget
            simp only []
            rw [buildTarget_attach c mk (i + 1) (by omega)]
          rw [hgen]
          simp only []
          rw [ihk (i + 1) (expectedTarget c mk (i + 1)) f (by omega) (by omega)]
          rw [show List.range' (i + 1) (k + 1) = (i + 1) :: List.range' (i + 2) k from by
            rw [List.range'_succ]]
          simp [Except.map]
      have hgt : getNextTarget ⟨Except.ok (some c) :: rest, mk, 0, tgt, ctx, false⟩ =
          .ok ⟨rest, mk, 0, some (expectedTarget c mk 0), some c, false⟩ := by
        unfold getNextTarget
        rw [gnnec_decl_some _ c rest rfl]
        simp only [emitterToI, generateTarget, Bool.not_false, if_true]
        rw [buildTarget_attach c mk 0 hn]
      rw [emitterPullTrace, hgt]
      simp only []
      rw [hQ (c.targets.length - 1) 0 (expectedTarget c mk 0) fuel (by omega)
        (by omega)]
      have hexp : expectedTargets (Except.ok (some c) :: rest) mk =
          expectedTarget c mk 0 ::
            ((List.range' 1 (c.targets.length - 1)).map (expectedTarget c mk) ++
              expectedTargets rest mk) := by
        rw [show expectedTargets (Except.ok (some c) :: rest) mk =
            (List.range c.targets.length).map (expectedTarget c mk) ++
              expectedTargets rest mk from by simp [expectedTargets]]
        rw [List.range_eq_range']
        rw [show c.targets.length = (c.targets.length - 1) + 1 from by omega]
        rw [List.range'_succ]
        simp
      rw [hexp]
      rfl

/-- C6: for every stream of successfully parsed rule contexts (each with at
least one target, as the grammar guarantees), the emitter produces exactly
one `Target` per (context, target-index) pair, in header order: the
`i`-th target of a context takes the `i`-th target identifier as its path
and shares the context's prerequisite list, order-only list and trimmed
recipe lines; in particular `a b c : d | e` yields three targets `a`, `b`,
`c` each with prerequisites `[d]` and order-only `[e]`. -/
theorem emitter_c6 (decls : List DeclResult)
    (hok : ∀ d ∈ decls, ∃ oc, d = Except.ok oc)
    (hne : ∀ c : RuleCtx, Except.ok (some c) ∈ decls → c.targets ≠ [])
    (mk : Option MakefileDesc) :
    emitterTrace (emitterFuel decls) (emitterInit decls mk) =
      .ok (expectedTargets decls mk) := by
  rw [show emitterFuel decls = (decls.map declWeight).sum + 1 from rfl]
  rw [emitterTrace_succ_pull _ (emitterInit decls mk) rfl rfl]
  exact emitter_pull_trace decls hok hne mk none none _ (totalTargets_le_weight decls)

/-- C6 witness: the rule `a b c : d | e` produces exactly the three
expected targets. -/
theorem emitter_c6_witness :
    emitterTrace (emitterFuel [Except.ok (some ⟨["a", "b", "c"], ["d"], ["e"], []⟩)])
      (emitterInit [Except.ok (some ⟨["a", "b", "c"], ["d"], ["e"], []⟩)] none) =
      .ok [⟨"a", ["d"], ["e"], [], none⟩, ⟨"b", ["d"], ["e"], [], none⟩,
        ⟨"c", ["d"], ["e"], [], none⟩] := by
  rw [emitter_c6 [Except.ok (some ⟨["a", "b", "c"], ["d"], ["e"], []⟩)]
    (by intro d hd; simp at hd; subst hd; exact ⟨_, rfl⟩)
    (by intro c hc; simp at hc; subst hc; simp)
    none]
  decide

theorem gnnecGo_no_cancel (n : Nat) : ∀ s : EmitterState,
    getNextNonEmptyContextGo n s ≠ .error ParseSignal.parseCancelled := by
  induction n with
  | zero =>
    intro s
    simp [getNextNonEmptyContextGo]
  | succ n ih =>
    intro s
    rw [getNextNonEmptyContextGo]
    rcases hd : s.decls with _ | ⟨d, rest⟩
    · rw [getNextContext_nil s hd]
      simp [emitterToE]
    · rcases d with e | ctx
      · rcases e with _ | _
        · rw [getNextContext_cancel s rest hd]
          simp [emitterToE]
        · rw [getNextContext_other s rest hd]
          simp
      · rw [getNextContext_decl s ctx rest hd]
        simp only []
        split
        · simp
        · exact ih _

theorem getNextTarget_no_cancel (s : EmitterState) :
    getNextTarget s ≠ .error ParseSignal.parseCancelled := by
  intro hcontra
  unfold getNextTarget at hcontra
  rcases hg : getNextNonEmptyContext s with e | s' <;> rw [hg] at hcontra
  · simp at hcontra
    subst hcontra
    exact gnnecGo_no_cancel _ s hg
  · simp only [] at hcontra
    split at hcontra <;> simp at hcontra

theorem getNextTarget_end (s : EmitterState)
    (h : s.decls = [] ∨ s.decls.head? = some (Except.error ParseSignal.parseCancelled)) :
    ∃ s', getNextTarget s = .ok s' ∧ s'.isAtEnd = true := by
  rcases h with h | h
  · refine ⟨emitterToE s, ?_, rfl⟩
    unfold getNextTarget
    rw [gnnec_nil s h]
    simp [emitterToE]
  · rcases hd : s.decls with _ | ⟨d, rest⟩
    · rw [hd] at h
      simp at h
    · rw [hd] at h
      simp at h
      subst h
      refine ⟨emitterToE { s with decls := rest }, ?_, rfl⟩
      unfold getNextTarget
      rw [gnnec_cancel s rest hd]
      simp [emitterToE]

/-- C7: the parse-cancelled end-of-input signal never propagates out of
the emitter's `move_to_next` (first conjunct, for every state and every
parser stream), and whenever `declaration()` is about to signal
cancellation — the outcome stream is exhausted or its next outcome is the
cancellation — a `move_to_next` that consults the parser (from the start
state, or from the last target of the current context) returns normally
with the emitter in its absorbing end state. -/
theorem emitter_c7 :
    (∀ s : EmitterState, emitterMoveToNext s ≠ Except.error ParseSignal.parseCancelled) ∧
    (∀ s : EmitterState,
      (s.decls = [] ∨ s.decls.head? = some (Except.error ParseSignal.parseCancelled)) →
      (emitterIsAtStart s = true ∨
        (emitterHasCurrent s = true ∧ s.index + 1 = emitterCurrentLength s)) →
      ∃ s', emitterMoveToNext s = .ok s' ∧ s'.isAtEnd = true) := by
  constructor
  · intro s
    unfold emitterMoveToNext
    split
    · exact getNextTarget_no_cancel s
    · split
      · simp
      · exact getNextTarget_no_cancel _
  · intro s hdecl hshape
    rcases hshape with hstart | ⟨hcur, hidx⟩
    · rcases getNextTarget_end s hdecl with ⟨s', h1, h2⟩
      refine ⟨s', ?_, h2⟩
      unfold emitterMoveToNext
      rw [if_pos hstart]
      exact h1
    · rcases getNextTarget_end { s with index := 0 } hdecl with ⟨s', h1, h2⟩
      refine ⟨s', ?_, h2⟩
      unfold emitterMoveToNext
      rw [if_neg (by
        unfold emitterIsAtStart
        rw [show emitterHasCurrent s = true from hcur]
        simp)]
      rw [if_neg (fun hc => hc hidx)]
      exact h1

/-- C7 witness: a parser stream whose first `declaration()` signals
cancellation moves the fresh emitter to the end state without the signal
escaping. -/
theorem emitter_c7_witness :
    (emitterMoveToNext (emitterInit [Except.error ParseSignal.parseCancelled] none) ≠
      Except.error ParseSignal.parseCancelled) ∧
    ∃ s', emitterMoveToNext (emitterInit [Except.error ParseSignal.parseCancelled] none) =
      .ok s' ∧ s'.isAtEnd = true :=
  ⟨emitter_c7.1 _, emitter_c7.2 _ (Or.inr rfl) (Or.inl rfl)⟩

/-! ## C9: `TokenToCharIterator` -/

theorem srcMove_future_nil {α : Type} (src : SrcState α) (h : srcFuture src = []) :
    srcMove src = .atEnd := by
  rcases src with l | ⟨c, r⟩ | _
  · rw [show l = [] from h]
    rfl
  · rw [show r = [] from h]
    rfl
  · rfl

theorem srcMove_future_cons {α : Type} (src : SrcState α) (t : α) (r : List α)
    (h : srcFuture src = t :: r) : srcMove src = .mid t r := by
  rcases src with l | ⟨c, r2⟩ | _
  · rw [show l = t :: r from h]
    rfl
  · rw [show r2 = t :: r from h]
    rfl
  · simp [srcFuture] at h

theorem ttcNextNonBlankGo_spec (ts : List Tok) :
    ∀ (src : SrcState Tok) (idx : Nat) (txt : Option (List Char)) (fuel : Nat),
      srcFuture src = ts → ts.length + 1 ≤ fuel →
      ttcNextNonBlankGo fuel ⟨src, idx, txt⟩ = ttcPullResult ts idx := by
  induction ts with
  | nil =>
    intro src idx txt fuel h hf
    rcases fuel with _ | f
    · omega
    have hnt : ttcNextText ⟨src, idx, txt⟩ = ⟨.atEnd, idx, none⟩ := by
      unfold ttcNextText
      rw [show (⟨src, idx, txt⟩ : TTCState).src = src from rfl, srcMove_future_nil src h]
    rw [ttcNextNonBlankGo]
    simp only [hnt]
    rw [ttcPullResult]
    simp
  | cons t r ih =>
    intro src idx txt fuel h hf
    rcases fuel with _ | f
    · omega
    have hmv := srcMove_future_cons src t r h
    by_cases he : t.type = eofType
    · have hnt : ttcNextText ⟨src, idx, txt⟩ = ⟨.mid t r, idx, none⟩ := by
        unfold ttcNextText
        rw [show (⟨src, idx, txt⟩ : TTCState).src = src from rfl, hmv]
        simp [he]
      rw [ttcNextNonBlankGo]
      simp only [hnt]
      rw [ttcPullResult, if_pos he]
      simp
    · have hnt : ttcNextText ⟨src, idx, txt⟩ = ⟨.mid t r, idx, some t.text⟩ := by
        unfold ttcNextText
        rw [show (⟨src, idx, txt⟩ : TTCState).src = src from rfl, hmv]
        simp [he]
      by_cases hb : t.text = []
      · rw [ttcNextNonBlankGo]
        simp only [hnt, hb]
        rw [ttcPullResult, if_neg he, if_pos hb]
        rw [if_pos trivial]
        exact ih (.mid t r) idx (some []) f rfl (by simp at hf; omega)
      · rw [ttcNextNonBlankGo]
        simp only [hnt]
        rw [ttcPullResult, if_neg he, if_neg hb]
        rw [if_neg (by simp [hb])]

theorem ttcNextNonBlank_spec (src : SrcState Tok) (idx : Nat) (txt : Option (List Char)) :
    ttcNextNonBlank ⟨src, idx, txt⟩ = ttcPullResult (srcFuture src) idx := by
  unfold ttcNextNonBlank
  apply ttcNextNonBlankGo_spec (srcFuture src) src idx txt _ rfl
  rcases src with l | ⟨c, r⟩ | _ <;> simp [srcFuture, srcRemaining]

theorem ttcTrace_atEnd (fuel : Nat) (s : TTCState) (h : ttcIsAtEnd s = true) :
    ttcTrace fuel s = [] := by
  cases fuel with
  | zero => rfl
  | succ n => rw [ttcTrace, if_pos h]

theorem ttcRun_atEnd (fuel : Nat) (s : TTCState) (h : ttcIsAtEnd s = true) :
    ttcRun fuel s = s := by
  cases fuel with
  | zero => rfl
  | succ n => rw [ttcRun, if_pos h]

theorem totalTokText_le_fuel (ts : List Tok) :
    totalTokText ts ≤ (ts.map fun t => t.text.length + 1).sum := by
  induction ts with
  | nil => simp [totalTokText]
  | cons t r ih =>
    rw [totalTokText] at ih ⊢
    simp only [List.map_cons, List.sum_cons]
    omega

theorem ttc_pull_collect (ts : List Tok) : ∀ (fuel : Nat), totalTokText ts ≤ fuel →
    ((match ttcCurrent? (ttcPullResult ts 0) with
      | some c => c :: ttcTrace fuel (ttcPullResult ts 0)
      | none => ttcTrace fuel (ttcPullResult ts 0)) = ttcExpected ts ∧
     ttcIsAtEnd (ttcRun fuel (ttcPullResult ts 0)) = true) := by
  induction ts with
  | nil =>
    intro fuel _
    rw [show ttcPullResult [] 0 = ⟨.atEnd, 0, none⟩ from rfl]
    rw [ttcTrace_atEnd fuel ⟨.atEnd, 0, none⟩ rfl, ttcRun_atEnd fuel ⟨.atEnd, 0, none⟩ rfl]
    exact ⟨rfl, rfl⟩
  | cons t r ih =>
    intro fuel hfuel
    by_cases he : t.type = eofType
    · rw [show ttcPullResult (t :: r) 0 = ⟨.mid t r, 0, none⟩ from by
        rw [ttcPullResult, if_pos he]]
      rw [ttcTrace_atEnd fuel ⟨.mid t r, 0, none⟩ rfl,
        ttcRun_atEnd fuel ⟨.mid t r, 0, none⟩ rfl]
      refine ⟨?_, rfl⟩
      rw [ttcExpected, List.takeWhile_cons]
      simp [ttcCurrent?, he]
    · by_cases hb : t.text = []
      · rw [show ttcPullResult (t :: r) 0 = ttcPullResult r 0 from by
          rw [ttcPullResult, if_neg he, if_pos hb]]
        have hres := ih fuel (by
          rw [totalTokText] at hfuel ⊢
          simp only [List.map_cons, List.sum_cons] at hfuel
          omega)
        refine ⟨?_, hres.2⟩
        rw [hres.1]
        rw [show ttcExpected (t :: r) = ttcExpected r from by
          simp [ttcExpected, List.takeWhile_cons, he, hb]]
      · rw [show ttcPullResult (t :: r) 0 = ⟨.mid t r, 0, some t.text⟩ from by
          rw [ttcPullResult, if_neg he, if_neg hb]]
        obtain ⟨c, cs, hc⟩ := List.exists_cons_of_ne_nil hb
        have hlen : t.text.length = cs.length + 1 := by rw [hc]; rfl
        -- the inner loop over the characters of the current token text
        have hQ : ∀ (k : Nat), ∀ (i fuel' : Nat), i + k + 1 = t.text.length →
            k + totalTokText r + 1 ≤ fuel' →
            (ttcTrace fuel' ⟨.mid t r, i, some t.text⟩ =
              t.text.drop (i + 1) ++ ttcExpected r ∧
             ttcIsAtEnd (ttcRun fuel' ⟨.mid t r, i, some t.text⟩) = true) := by
          intro k
          induction k with
          | zero =>
            intro i fuel' hik hf
            rcases fuel' with _ | f
            · omega
            have hmv : ttcMoveToNext ⟨.mid t r, i, some t.text⟩ = ttcPullResult r 0 := by
              unfold ttcMoveToNext
              rw [if_neg (by
                rw [show ttcIsAtStart ⟨.mid t r, i, some t.text⟩ = false  from rfl]
                simp)]
              rw [if_neg (by
                show ¬(i + 1 ≠ t.text.length)
                omega)]
              show ttcNextNonBlank ⟨.mid t r, 0, some t.text⟩ = ttcPullResult r 0
              rw [ttcNextNonBlank_spec]
              rfl
            have hres := ih f (by omega)
            constructor
            · rw [ttcTrace, if_neg (by
                rw [show ttcIsAtEnd ⟨.mid t r, i, some t.text⟩ = false from rfl]
                simp)]
              rw [hmv]
              rw [show t.text.drop (i + 1) = [] from by
                apply List.drop_eq_nil_of_le
                omega]
              simp only [List.nil_append]
              exact hres.1
            · rw [ttcRun, if_neg (by
                rw [show ttcIsAtEnd ⟨.mid t r, i, some t.text⟩ = false from rfl]
                simp)]
              rw [hmv]
              exact hres.2
          | succ k ihk =>
            intro i fuel' hik hf
            rcases fuel' with _ | f
            · omega
            have hmv : ttcMoveToNext ⟨.mid t r, i, some t.text⟩ =
                ⟨.mid t r, i + 1, some t.text⟩ := by
              unfold ttcMoveToNext
              rw [if_neg (by
                rw [show ttcIsAtStart ⟨.mid t r, i, some t.text⟩ = false  from rfl]
                simp)]
              rw [if_pos (by
                show i + 1 ≠ t.text.length
                omega)]
            have hres := ihk (i + 1) f (by omega) (by omega)
            have hcur : ttcCurrent? ⟨.mid t r, i + 1, some t.text⟩ =
                some (t.text.get ⟨i + 1, by omega⟩) := by
              show t.text.get? (i + 1) = some (t.text.get ⟨i + 1, by omega⟩)
              rw [List.get?_eq_get (by omega)]
            constructor
            · rw [ttcTrace, if_neg (by
                rw [show ttcIsAtEnd ⟨.mid t r, i, some t.text⟩ = false from rfl]
                simp)]
              rw [hmv]
              simp only [hcur]
              rw [hres.1]
              rw [show t.text.drop (i + 1) =
                  t.text.get ⟨i + 1, by omega⟩ :: t.text.drop (i + 1 + 1) from by
                rw [List.drop_eq_get_cons (by omega)]]
              rfl
            · rw [ttcRun, if_neg (by
                rw [show ttcIsAtEnd ⟨.mid t r, i, some t.text⟩ = false from rfl]
                simp)]
              rw [hmv]
              exact hres.2
        have htot : totalTokText (t :: r) = t.text.length + totalTokText r := by
          rw [totalTokText, totalTokText]
          simp
        have hres := hQ (t.text.length - 1) 0 fuel (by omega) (by omega)
        constructor
        · rw [hres.1]
          rw [show t.text.drop (0 + 1) = cs from by rw [hc]; rfl]
          rw [show ttcExpected (t :: r) = t.text ++ ttcExpected r from by
            simp [ttcExpected, List.takeWhile_cons, he]]
          rw [hc]
          rfl
        · exact hres.2

/-- C9: over any source token list, `TokenToCharIterator` emits exactly
the concatenation of the texts of the tokens preceding the first
EOF-typed token (empty texts contributing nothing), reaches its end state
there, and never emits the EOF token's text nor anything after it; the
trace is stable under any sufficient fuel, reflecting that the machine
has stopped. -/
theorem tokenToChar_c9 (toks : List Tok) (fuel : Nat) (hf : ttcFuel toks ≤ fuel) :
    ttcTrace fuel (ttcInit (SrcState.atStart toks)) = ttcExpected toks ∧
    ttcIsAtEnd (ttcRun fuel (ttcInit (SrcState.atStart toks))) = true := by
  rcases fuel with _ | f
  · exfalso
    rw [ttcFuel] at hf
    omega
  have hinit : ttcInit (SrcState.atStart toks) = ⟨.atStart toks, 0, none⟩ := rfl
  rw [hinit]
  have hmv : ttcMoveToNext ⟨.atStart toks, 0, none⟩ = ttcPullResult toks 0 := by
    unfold ttcMoveToNext
    rw [if_pos (show ttcIsAtStart ⟨.atStart toks, 0, none⟩ = true from rfl)]
    rw [ttcNextNonBlank_spec (SrcState.atStart toks) 0 none]
    rfl
  have hfl : totalTokText toks ≤ f := by
    have := totalTokText_le_fuel toks
    rw [ttcFuel] at hf
    omega
  have hres := ttc_pull_collect toks f hfl
  constructor
  · rw [ttcTrace, if_neg (by
                rw [show ttcIsAtEnd ⟨.atStart toks, 0, none⟩ = false  from rfl]
                simp)]
    rw [hmv]
    exact hres.1
  · rw [ttcRun, if_neg (by
                rw [show ttcIsAtEnd ⟨.atStart toks, 0, none⟩ = false  from rfl]
                simp)]
    rw [hmv]
    exact hres.2

/-- C9 witness: a concrete token stream with an empty-text token, an EOF
token carrying text, and a trailing token after EOF. -/
theorem tokenToChar_c9_witness :
    ttcTrace (ttcFuel [⟨5, 'a' :: 'b' :: []⟩, ⟨6, []⟩, ⟨7, 'c' :: []⟩,
        ⟨eofType, 'z' :: []⟩, ⟨8, 'q' :: []⟩])
      (ttcInit (SrcState.atStart [⟨5, 'a' :: 'b' :: []⟩, ⟨6, []⟩, ⟨7, 'c' :: []⟩,
        ⟨eofType, 'z' :: []⟩, ⟨8, 'q' :: []⟩])) = 'a' :: 'b' :: 'c' :: [] :=
  (tokenToChar_c9 [⟨5, 'a' :: 'b' :: []⟩, ⟨6, []⟩, ⟨7, 'c' :: []⟩,
      ⟨eofType, 'z' :: []⟩, ⟨8, 'q' :: []⟩] _ (le_refl _)).1.trans (by decide)

/-! ## C3: `IteratorToIntStreamAdapter.seek` -/

theorem msaTotal_mid {α : Type} (a : MSA α) (c : α) (r : List α)
    (hs : a.src = SrcState.mid c r) :
    msaTotal a = a.dropped + a.buf.length + r.length := by
  unfold msaTotal msaSize
  rw [hs]

theorem msaTotal_atEnd {α : Type} (a : MSA α) (hs : a.src = SrcState.atEnd) :
    msaTotal a = a.dropped + a.buf.length := by
  unfold msaTotal msaSize
  rw [hs]
  rfl

theorem msaTotal_atStart {α : Type} (a : MSA α) (l : List α)
    (hs : a.src = SrcState.atStart l) :
    msaTotal a = a.dropped + a.buf.length := by
  unfold msaTotal msaSize
  rw [hs]
  rfl

theorem msaIndex_of_current {α : Type} (a : MSA α) (hc : msaHasCurrent a = true) :
    msaIndex a = a.dropped + a.cursor := by
  unfold msaIndex
  rw [if_pos hc]

theorem msaIndex_of_end {α : Type} (a : MSA α) (hc : msaHasCurrent a = false) :
    msaIndex a = msaSize a := by
  unfold msaIndex
  rw [if_neg (by simp [hc])]

theorem msaHasCurrent_lt {α : Type} (a : MSA α) (hc : msaHasCurrent a = true) :
    a.cursor < a.buf.length := of_decide_eq_true hc

theorem msaHasCurrent_ge {α : Type} (a : MSA α) (hc : msaHasCurrent a = false) :
    a.buf.length ≤ a.cursor := by
  have := of_decide_eq_false hc
  omega

theorem msaIndex_lt_total {α : Type} (a : MSA α) (hc : msaHasCurrent a = true) :
    msaIndex a < msaTotal a := by
  have hcl : a.cursor < a.buf.length := msaHasCurrent_lt a hc
  rw [msaIndex_of_current a hc]
  rcases hs : a.src with l | ⟨c, r⟩ | _
  · rw [msaTotal_atStart a l hs]
    omega
  · rw [msaTotal_mid a c r hs]
    omega
  · rw [msaTotal_atEnd a hs]
    omega

theorem msaMoveToNext_spec {α : Type} [DecidableEq α] (a : MSA α)
    (h : MSAInv a) (hc : msaHasCurrent a = true) :
    MSAInv (msaMoveToNext a) ∧
    msaTotal (msaMoveToNext a) = msaTotal a ∧
    msaIndex (msaMoveToNext a) = msaIndex a + 1 ∧
    msaHasCurrent (msaMoveToNext a) = decide (msaIndex a + 1 < msaTotal a) := by
  obtain ⟨h1, h2, h3, h4⟩ := h
  have hcl : a.cursor < a.buf.length := msaHasCurrent_lt a hc
  have hidxa : msaIndex a = a.dropped + a.cursor := msaIndex_of_current a hc
  by_cases hmore : a.cursor + 1 ≠ a.buf.length
  · have hlt2 : a.cursor + 1 < a.buf.length := by omega
    have hmv : msaMoveToNext a = { a with cursor := a.cursor + 1 } := by
      unfold msaMoveToNext
      rw [if_pos hmore]
    have hc2 : msaHasCurrent { a with cursor := a.cursor + 1 } = true := by
      show decide (a.cursor + 1 < a.buf.length) = true
      exact decide_eq_true hlt2
    rw [hmv]
    refine ⟨⟨?_, ?_, h3, h4⟩, rfl, ?_, ?_⟩
    · show a.cursor + 1 ≤ a.buf.length
      omega
    · intro hx
      exact absurd hx (show ¬(a.buf.length ≤ a.cursor + 1) from by omega)
    · rw [msaIndex_of_current _ hc2, hidxa]
      show a.dropped + (a.cursor + 1) = a.dropped + a.cursor + 1
      omega
    · rw [hc2, hidxa]
      symm
      apply decide_eq_true
      rcases hs : a.src with l | ⟨c, r⟩ | _
      · rw [msaTotal_atStart a l hs]
        omega
      · rw [msaTotal_mid a c r hs]
        omega
      · rw [msaTotal_atEnd a hs]
        omega
  · have heq : a.cursor + 1 = a.buf.length := by omega
    have hmv0 : msaMoveToNext a =
        { msaLoadOne a with cursor := (msaLoadOne a).cursor + 1 } := by
      unfold msaMoveToNext
      rw [if_neg hmore]
    rcases hs : a.src with l | ⟨c, rest⟩ | _
    · exfalso
      rw [hs] at h4
      simp [srcIsAtStart] at h4
    · simp only [msaSrcConsistent, hs] at h3
      rw [Bool.and_eq_true] at h3
      obtain ⟨hb1, hb2⟩ := h3
      rcases rest with _ | ⟨c2, r2⟩
      · have hload : msaLoadOne a = { a with src := SrcState.atEnd } := by
          unfold msaLoadOne
          rw [hs]
          rfl
        have hmv : msaMoveToNext a =
            { a with src := SrcState.atEnd, cursor := a.cursor + 1 } := by
          rw [hmv0, hload]
        have hc2 : msaHasCurrent { a with src := SrcState.atEnd, cursor := a.cursor + 1 } = false := by
          show decide (a.cursor + 1 < a.buf.length) = false
          apply decide_eq_false
          omega
        rw [hmv]
        refine ⟨⟨?_, fun _ => rfl, rfl, rfl⟩, ?_, ?_, ?_⟩
        · show a.cursor + 1 ≤ a.buf.length
          omega
        · rw [msaTotal_atEnd _ rfl, msaTotal_mid a c [] hs]
          show a.dropped + a.buf.length = a.dropped + a.buf.length + 0
          omega
        · rw [msaIndex_of_end _ hc2, hidxa]
          show a.dropped + a.buf.length = a.dropped + a.cursor + 1
          omega
        · rw [hc2, hidxa, msaTotal_mid a c [] hs]
          symm
          apply decide_eq_false
          show ¬(a.dropped + a.cursor + 1 < a.dropped + a.buf.length + 0)
          omega
      · have hload : msaLoadOne a =
            { a with src := SrcState.mid c2 r2, buf := a.buf ++ [c2] } := by
          unfold msaLoadOne
          rw [hs]
          rfl
        have hmv : msaMoveToNext a = { a with src := SrcState.mid c2 r2, buf := a.buf ++ [c2], cursor := a.cursor + 1 } := by
          rw [hmv0, hload]
        have hc2 : msaHasCurrent { a with src := SrcState.mid c2 r2, buf := a.buf ++ [c2], cursor := a.cursor + 1 } = true := by
          show decide (a.cursor + 1 < (a.buf ++ [c2]).length) = true
          apply decide_eq_true
          rw [List.length_append]
          show a.cursor + 1 < a.buf.length + 1
          omega
        rw [hmv]
        refine ⟨⟨?_, ?_, ?_, rfl⟩, ?_, ?_, ?_⟩
        · show a.cursor + 1 ≤ (a.buf ++ [c2]).length
          rw [List.length_append]
          show a.cursor + 1 ≤ a.buf.length + 1
          omega
        · intro hx
          exfalso
          have hx2 : (a.buf ++ [c2]).length ≤ a.cursor + 1 := hx
          rw [List.length_append] at hx2
          have hx3 : a.buf.length + 1 ≤ a.cursor + 1 := hx2
          omega
        · show msaSrcConsistent { a with src := SrcState.mid c2 r2, buf := a.buf ++ [c2], cursor := a.cursor + 1 } = true
          simp only [msaSrcConsistent]
          simp [List.getLast?_concat]
        · rw [msaTotal_mid _ c2 r2 rfl, msaTotal_mid a c (c2 :: r2) hs]
          show a.dropped + (a.buf ++ [c2]).length + r2.length =
            a.dropped + a.buf.length + (r2.length + 1)
          rw [List.length_append]
          show a.dropped + (a.buf.length + 1) + r2.length =
            a.dropped + a.buf.length + (r2.length + 1)
          omega
        · rw [msaIndex_of_current _ hc2, hidxa]
          show a.dropped + (a.cursor + 1) = a.dropped + a.cursor + 1
          omega
        · rw [hc2, hidxa, msaTotal_mid a c (c2 :: r2) hs]
          symm
          apply decide_eq_true
          show a.dropped + a.cursor + 1 < a.dropped + a.buf.length + (r2.length + 1)
          omega
    · have hload : msaLoadOne a = a := by
        unfold msaLoadOne
        rw [hs]
      have hmv : msaMoveToNext a = { a with cursor := a.cursor + 1 } := by
        rw [hmv0, hload]
      have hc2 : msaHasCurrent { a with cursor := a.cursor + 1 } = false := by
        show decide (a.cursor + 1 < a.buf.length) = false
        apply decide_eq_false
        omega
      rw [hmv]
      refine ⟨⟨?_, fun _ => hs, h3, h4⟩, rfl, ?_, ?_⟩
      · show a.cursor + 1 ≤ a.buf.length
        omega
      · rw [msaIndex_of_end _ hc2, hidxa]
        show a.dropped + a.buf.length = a.dropped + a.cursor + 1
        omega
      · rw [hc2, hidxa, msaTotal_atEnd a hs]
        symm
        apply decide_eq_false
        omega

theorem msaSeekLoop_atEnd {α : Type} (d : Nat) (a : MSA α) (h : msaIsAtEnd a = true) :
    msaSeekLoop d a = a := by
  cases d with
  | zero => rfl
  | succ n => rw [msaSeekLoop, if_pos h]

theorem msaSeekLoop_spec {α : Type} [DecidableEq α] (d : Nat) :
    ∀ (a : MSA α), MSAInv a → msaHasCurrent a = true →
      MSAInv (msaSeekLoop d a) ∧
      msaTotal (msaSeekLoop d a) = msaTotal a ∧
      (msaIndex a + d < msaTotal a →
        msaIndex (msaSeekLoop d a) = msaIndex a + d ∧
        msaHasCurrent (msaSeekLoop d a) = true) ∧
      (msaTotal a ≤ msaIndex a + d →
        msaIsAtEnd (msaSeekLoop d a) = true ∧
        (msaSeekLoop d a).src = SrcState.atEnd ∧
        msaSize (msaSeekLoop d a) = msaTotal a) := by
  induction d with
  | zero =>
    intro a h hc
    refine ⟨h, rfl, fun _ => ⟨show msaIndex a = msaIndex a + 0 from by omega, hc⟩,
      fun hx => absurd hx (by have := msaIndex_lt_total a hc; omega)⟩
  | succ d ih =>
    intro a h hc
    have hend : msaIsAtEnd a = false := by
      unfold msaIsAtEnd
      rw [hc]
      rfl
    rw [show msaSeekLoop (d + 1) a = msaSeekLoop d (msaMoveToNext a) from by
      rw [msaSeekLoop, if_neg (by simp [hend])]]
    obtain ⟨hInv2, htot2, hidx2, hcur2⟩ := msaMoveToNext_spec a h hc
    by_cases hlt : msaIndex a + 1 < msaTotal a
    · have hc2 : msaHasCurrent (msaMoveToNext a) = true := by
        rw [hcur2]
        exact decide_eq_true hlt
      obtain ⟨i1, i2, i3, i4⟩ := ih (msaMoveToNext a) hInv2 hc2
      refine ⟨i1, by rw [i2, htot2], ?_, ?_⟩
      · intro hx
        have h5 := i3 (by rw [hidx2, htot2]; omega)
        exact ⟨by rw [h5.1, hidx2]; omega, h5.2⟩
      · intro hx
        have h6 := i4 (by rw [hidx2, htot2]; omega)
        exact ⟨h6.1, h6.2.1, by rw [h6.2.2, htot2]⟩
    · have hc2 : msaHasCurrent (msaMoveToNext a) = false := by
        rw [hcur2]
        exact decide_eq_false hlt
      have hend2 : msaIsAtEnd (msaMoveToNext a) = true := by
        unfold msaIsAtEnd
        rw [hc2]
        rfl
      rw [msaSeekLoop_atEnd d _ hend2]
      have hsrc2 : (msaMoveToNext a).src = SrcState.atEnd := by
        obtain ⟨j1, j2, j3, j4⟩ := hInv2
        exact j2 (msaHasCurrent_ge _ hc2)
      have hsz2 : msaSize (msaMoveToNext a) = msaTotal a := by
        have h7 : msaTotal (msaMoveToNext a) = msaSize (msaMoveToNext a) := by
          rw [msaTotal_atEnd _ hsrc2]
          rfl
        rw [← h7, htot2]
      refine ⟨hInv2, htot2, fun hx => absurd hx (by omega), fun _ => ⟨hend2, hsrc2, hsz2⟩⟩

/-- C3 counterexample: over the four-character source `abcd` the freshly
initialized adapter has size 1, yet `seek 2` leaves the stream in state I
(not at its end) on the not-yet-exhausted source. -/
theorem msaSeek_c3_counterexample :
    (msaSize (msaInit (SrcState.atStart ('a' :: 'b' :: 'c' :: 'd' :: []))) : Int) ≤ 2 ∧
    (msaSeek (msaInit (SrcState.atStart ('a' :: 'b' :: 'c' :: 'd' :: []))) 2).map
      msaIsAtEnd = Except.ok false ∧
    (msaSeek (msaInit (SrcState.atStart ('a' :: 'b' :: 'c' :: 'd' :: []))) 2).map
      (fun b => srcHasCurrent b.src) = Except.ok true := by
  decide

/-- C3: for the markable stream adapter in any reachable state (the
invariant `MSAInv`), `seek i` with negative `i` fails with the
negative-index error kind; `seek i` with `size ≤ i` advances the stream —
reaching global index `i` in state I when the underlying source still
supplies enough items, and otherwise stopping in the end state with the
source pulled to exhaustion — rather than unconditionally moving to the
end state; `seek i` with `i` below the lowest still-buffered global index
fails with the ReleasedPosition error kind; any other `seek i` repositions
the cursor within the buffer to global index `i`. -/
theorem msaSeek_c3_amended {α : Type} [DecidableEq α] (a : MSA α) (i : Int)
    (h : MSAInv a) :
    (i < 0 → msaSeek a i = Except.error StreamErr.negativeIndex) ∧
    (0 ≤ i →
      ((msaSize a : Int) ≤ i →
        ∃ b, msaSeek a i = Except.ok b ∧ MSAInv b ∧ msaTotal b = msaTotal a ∧
          (i.toNat < msaTotal a → msaIndex b = i.toNat ∧ msaHasCurrent b = true) ∧
          (msaTotal a ≤ i.toNat → msaIsAtEnd b = true ∧ b.src = SrcState.atEnd ∧
            msaSize b = msaTotal a)) ∧
      (i < (msaLowest a : Int) → msaSeek a i = Except.error StreamErr.releasedPosition) ∧
      ((msaLowest a : Int) ≤ i → i < (msaSize a : Int) →
        msaSeek a i = Except.ok { a with cursor := i.toNat - a.dropped })) := by
  obtain ⟨h1, h2, h3, h4⟩ := h
  constructor
  · intro hi
    unfold msaSeek
    rw [if_pos hi]
  · intro hi0
    have hni : ¬(i < 0) := by omega
    have hlow_def : msaLowest a = a.dropped := rfl
    have hsz_def : msaSize a = a.dropped + a.buf.length := rfl
    refine ⟨?_, ?_, ?_⟩
    · intro hsz
      have hszn : msaSize a ≤ i.toNat := by omega
      by_cases hc : msaHasCurrent a = true
      · have hcl : a.cursor < a.buf.length := msaHasCurrent_lt a hc
        have hseek : msaSeek a i = Except.ok
            (msaSeekLoop (i.toNat - msaIndex { a with cursor := a.buf.length - 1 })
              { a with cursor := a.buf.length - 1 }) := by
          simp only [msaSeek]
          rw [if_neg hni, if_pos hc, if_pos hszn]
        have hc1 : msaHasCurrent { a with cursor := a.buf.length - 1 } = true := by
          show decide (a.buf.length - 1 < a.buf.length) = true
          apply decide_eq_true
          omega
        have hInv1 : MSAInv { a with cursor := a.buf.length - 1 } := by
          refine ⟨?_, ?_, h3, h4⟩
          · show a.buf.length - 1 ≤ a.buf.length
            omega
          · intro hx
            exact absurd hx (show ¬(a.buf.length ≤ a.buf.length - 1) from by omega)
        have hidx1 : msaIndex { a with cursor := a.buf.length - 1 } =
            a.dropped + (a.buf.length - 1) := msaIndex_of_current _ hc1
        have htot1 : msaTotal { a with cursor := a.buf.length - 1 } = msaTotal a := rfl
        have hsize_le : msaSize a ≤ msaTotal a := by
          rcases hs : a.src with l | ⟨c, r⟩ | _
          · rw [msaTotal_atStart a l hs]
            omega
          · rw [msaTotal_mid a c r hs]
            omega
          · rw [msaTotal_atEnd a hs]
            omega
        obtain ⟨s1, s2, s3, s4⟩ := msaSeekLoop_spec
          (i.toNat - msaIndex { a with cursor := a.buf.length - 1 })
          { a with cursor := a.buf.length - 1 } hInv1 hc1
        refine ⟨_, hseek, s1, by rw [s2, htot1], ?_, ?_⟩
        · intro hx
          have h5 := s3 (by rw [hidx1, htot1]; omega)
          exact ⟨by rw [h5.1, hidx1]; omega, h5.2⟩
        · intro hx
          have h6 := s4 (by rw [hidx1, htot1]; omega)
          exact ⟨h6.1, h6.2.1, by rw [h6.2.2, htot1]⟩
      · have hc2 : msaHasCurrent a = false := by
          revert hc
          cases msaHasCurrent a <;> simp
        have hclen : a.buf.length ≤ a.cursor := msaHasCurrent_ge a hc2
        have hsrc : a.src = SrcState.atEnd := h2 hclen
        have hend : msaIsAtEnd a = true := by
          unfold msaIsAtEnd
          rw [hc2]
          rfl
        have htoteq : msaTotal a = msaSize a := by
          rw [msaTotal_atEnd a hsrc]
          rfl
        have hseek : msaSeek a i = Except.ok a := by
          simp only [msaSeek]
          rw [if_neg hni, if_neg (by simp [hc2])]
          by_cases hE : msaIsE a = true
          · rw [if_pos hE, if_pos hszn]
          · rw [if_neg hE, if_pos hszn]
        refine ⟨a, hseek, ⟨h1, h2, h3, h4⟩, rfl, fun hx => absurd hx (by omega),
          fun _ => ⟨hend, hsrc, htoteq.symm⟩⟩
    · intro hlow
      have hnsz : ¬(msaSize a ≤ i.toNat) := by omega
      have hbuf : msaIndexInBuffer a i.toNat = false := by
        unfold msaIndexInBuffer
        have hx1 : ¬(msaLowest a ≤ i.toNat) := by omega
        simp [hx1]
      by_cases hc : msaHasCurrent a = true
      · simp only [msaSeek]
        rw [if_neg hni, if_pos hc, if_neg hnsz, if_neg (by simp [hbuf])]
      · have hc2 : msaHasCurrent a = false := by
          revert hc
          cases msaHasCurrent a <;> simp
        simp only [msaSeek]
        rw [if_neg hni, if_neg (by simp [hc2])]
        by_cases hE : msaIsE a = true
        · rw [if_pos hE, if_neg hnsz, if_neg (by simp [hbuf])]
        · rw [if_neg hE, if_neg hnsz]
    · intro hlo hhi
      have hnsz : ¬(msaSize a ≤ i.toNat) := by omega
      have hbuf : msaIndexInBuffer a i.toNat = true := by
        unfold msaIndexInBuffer
        have hx1 : msaLowest a ≤ i.toNat := by omega
        have hx2 : i.toNat < msaSize a := by omega
        simp [hx1, hx2]
      by_cases hc : msaHasCurrent a = true
      · simp only [msaSeek]
        rw [if_neg hni, if_pos hc, if_neg hnsz, if_pos hbuf]
      · have hc2 : msaHasCurrent a = false := by
          revert hc
          cases msaHasCurrent a <;> simp
        have hend : msaIsAtEnd a = true := by
          unfold msaIsAtEnd
          rw [hc2]
          rfl
        by_cases hE : msaIsE a = true
        · simp only [msaSeek]
          rw [if_neg hni, if_neg (by simp [hc2]), if_pos hE, if_neg hnsz, if_pos hbuf]
        · exfalso
          have hemp : a.buf.isEmpty = true := by
            by_contra hne
            apply hE
            unfold msaIsE
            rw [hend]
            simp at hne
            simp [hne]
          have hlen0 : a.buf.length = 0 := by
            simp at hemp
            simp [hemp]
          omega

/-- C3 witness: the amended seek characterization instantiated on a
concrete two-character adapter, exercising the negative-index clause. -/
theorem msaSeek_c3_witness :
    msaSeek (msaInit (SrcState.atStart ('x' :: 'y' :: []))) (-3) =
      Except.error StreamErr.negativeIndex :=
  (msaSeek_c3_amended (msaInit (SrcState.atStart ('x' :: 'y' :: []))) (-3)
    (by decide)).1 (by decide)

/-! ## C10: the adapters have no start state -/

/-- C10 counterexample: the token-stream adapter built over a source
presenting one item — a single EOF-typed token — starts with
`has_current_item` false and is immediately at its end, not in state I. -/
theorem adapters_c10_counterexample :
    msaHasCurrent (msaTokenInit (SrcState.atStart ((⟨eofType, []⟩ : Tok) :: []))) = false ∧
    msaIsAtEnd (msaTokenInit (SrcState.atStart ((⟨eofType, []⟩ : Tok) :: []))) = true := by
  decide

/-- C10: the iterator-to-stream adapters have no start state —
`is_at_start` is false in every state — and construction eagerly advances
the source past its start: the int/char variant over any nonempty source
is immediately in state I with index 0 and a current item, and the token
variant likewise whenever the first source item is not EOF-typed; when the
first item is an EOF-typed token, however, the token variant starts with
no current item, already at its end. -/
theorem adapters_c10_amended :
    (∀ (α : Type) (a : MSA α), msaIsAtStart a = false) ∧
    (∀ (α : Type) (c : α) (l : List α),
      msaHasCurrent (msaInit (SrcState.atStart (c :: l))) = true ∧
      msaIndex (msaInit (SrcState.atStart (c :: l))) = 0) ∧
    (∀ (t : Tok) (l : List Tok), t.type ≠ eofType →
      msaHasCurrent (msaTokenInit (SrcState.atStart (t :: l))) = true ∧
      msaIndex (msaTokenInit (SrcState.atStart (t :: l))) = 0) ∧
    (∀ (t : Tok) (l : List Tok), t.type = eofType →
      msaHasCurrent (msaTokenInit (SrcState.atStart (t :: l))) = false ∧
      msaIsAtEnd (msaTokenInit (SrcState.atStart (t :: l))) = true) := by
  refine ⟨fun α a => rfl, fun α c l => ⟨rfl, rfl⟩, ?_, ?_⟩
  · intro t l ht
    have hcore : msaTokenInit (SrcState.atStart (t :: l)) =
        ⟨SrcState.mid t l, 0, [t], 0, [], 0⟩ := by
      unfold msaTokenInit msaTokenInitCore
      show (if t.type ≠ eofType then (⟨SrcState.mid t l, 0, [t], 0, [], 0⟩ : MSA Tok)
        else ⟨SrcState.mid t l, 0, [], 0, [], 0⟩) = ⟨SrcState.mid t l, 0, [t], 0, [], 0⟩
      rw [if_pos ht]
    rw [hcore]
    exact ⟨rfl, rfl⟩
  · intro t l ht
    have hcore : msaTokenInit (SrcState.atStart (t :: l)) =
        ⟨SrcState.mid t l, 0, [], 0, [], 0⟩ := by
      unfold msaTokenInit msaTokenInitCore
      show (if t.type ≠ eofType then (⟨SrcState.mid t l, 0, [t], 0, [], 0⟩ : MSA Tok)
        else ⟨SrcState.mid t l, 0, [], 0, [], 0⟩) = ⟨SrcState.mid t l, 0, [], 0, [], 0⟩
      rw [if_neg (fun hx => hx ht)]
    rw [hcore]
    exact ⟨rfl, rfl⟩

/-- C10 witness: the amended start-state characterization instantiated on
a concrete one-token source whose head is not EOF-typed. -/
theorem adapters_c10_witness :
    msaHasCurrent (msaTokenInit (SrcState.atStart ((⟨5, 'a' :: []⟩ : Tok) :: []))) = true ∧
    msaIndex (msaTokenInit (SrcState.atStart ((⟨5, 'a' :: []⟩ : Tok) :: []))) = 0 :=
  adapters_c10_amended.2.2.1 ⟨5, 'a' :: []⟩ [] (by decide)

/-! ## C1: the buffered and streaming factory assemblies agree -/

theorem drainFrom_eq {α : Type} (c : α) (l : List α) : drainFrom c l = c :: l := by
  induction l generalizing c with
  | nil => rfl
  | cons h t ih => rw [drainFrom, ih]

theorem factoryDrain_atStart {α : Type} (l : List α) :
    factoryDrain (SrcState.atStart l) = l := by
  cases l with
  | nil => rfl
  | cons c r =>
    show drainFrom c r = c :: r
    exact drainFrom_eq c r

theorem msaDrain_mid {α : Type} :
    ∀ (r : List α) (c : α) (buf0 : List α) (dropped cur : Nat)
      (marks : List (Nat × Nat)) (nr fuel : Nat),
      cur = buf0.length → r.length + 1 ≤ fuel →
      msaDrain fuel ⟨SrcState.mid c r, dropped, buf0 ++ [c], cur, marks, nr⟩ = c :: r := by
  intro r
  induction r with
  | nil =>
    intro c buf0 dropped cur marks nr fuel hcur hf
    rcases fuel with _ | f
    · omega
    subst hcur
    rw [msaDrain]
    simp only [show msaCurrent?
      (⟨SrcState.mid c [], dropped, buf0 ++ [c], buf0.length, marks, nr⟩ : MSA α) = some c
      from List.get?_concat_length buf0 c]
    congr 1
    have hmv : msaMoveToNext
        (⟨SrcState.mid c [], dropped, buf0 ++ [c], buf0.length, marks, nr⟩ : MSA α) =
        ⟨SrcState.atEnd, dropped, buf0 ++ [c], buf0.length + 1, marks, nr⟩ := by
      unfold msaMoveToNext
      rw [if_neg (by simp)]
      rfl
    rw [hmv]
    cases f with
    | zero => rfl
    | succ g =>
      rw [msaDrain]
      rw [show msaCurrent?
        (⟨SrcState.atEnd, dropped, buf0 ++ [c], buf0.length + 1, marks, nr⟩ : MSA α) = none
        from List.get?_eq_none.mpr (by simp)]
  | cons c2 r2 ih =>
    intro c buf0 dropped cur marks nr fuel hcur hf
    rcases fuel with _ | f
    · omega
    subst hcur
    rw [msaDrain]
    simp only [show msaCurrent?
      (⟨SrcState.mid c (c2 :: r2), dropped, buf0 ++ [c], buf0.length, marks, nr⟩ : MSA α) =
      some c from List.get?_concat_length buf0 c]
    congr 1
    have hmv : msaMoveToNext
        (⟨SrcState.mid c (c2 :: r2), dropped, buf0 ++ [c], buf0.length, marks, nr⟩ : MSA α) =
        ⟨SrcState.mid c2 r2, dropped, (buf0 ++ [c]) ++ [c2], buf0.length + 1, marks, nr⟩ := by
      unfold msaMoveToNext
      rw [if_neg (by simp)]
      rfl
    rw [hmv]
    exact ih c2 (buf0 ++ [c]) dropped (buf0.length + 1) marks nr f (by simp)
      (by simp at hf; omega)

theorem msaDrain_init {α : Type} (l : List α) :
    msaDrain (l.length + 1) (msaInit (SrcState.atStart l)) = l := by
  cases l with
  | nil => rfl
  | cons c r =>
    exact msaDrain_mid r c [] 0 0 [] 0 (r.length + 1 + 1) rfl (by omega)

theorem msaTokenDrain_mid :
    ∀ (body : List Tok) (t eof : Tok) (buf0 : List Tok) (dropped cur : Nat)
      (marks : List (Nat × Nat)) (nr fuel : Nat),
      t.type ≠ eofType → eof.type = eofType →
      (∀ x ∈ body, x.type ≠ eofType) →
      cur = buf0.length → body.length + 1 ≤ fuel →
      msaTokenDrain fuel
        ⟨SrcState.mid t (body ++ [eof]), dropped, buf0 ++ [t], cur, marks, nr⟩ =
      t :: body := by
  intro body
  induction body with
  | nil =>
    intro t eof buf0 dropped cur marks nr fuel ht he hb hcur hf
    rcases fuel with _ | f
    · omega
    subst hcur
    simp only [List.nil_append]
    rw [msaTokenDrain]
    simp only [show msaCurrent?
      (⟨SrcState.mid t [eof], dropped, buf0 ++ [t], buf0.length, marks, nr⟩ : MSA Tok) =
      some t from List.get?_concat_length buf0 t]
    congr 1
    have hload : msaTokenLoadOne
        ⟨SrcState.mid t [eof], dropped, buf0 ++ [t], buf0.length, marks, nr⟩ =
        ⟨SrcState.mid eof [], dropped, buf0 ++ [t], buf0.length, marks, nr⟩ := by
      simp only [msaTokenLoadOne]
      rw [if_pos ht]
      simp only [srcMove]
      rw [if_neg (by simp [he])]
    have hmv : msaTokenMoveToNext
        ⟨SrcState.mid t [eof], dropped, buf0 ++ [t], buf0.length, marks, nr⟩ =
        ⟨SrcState.mid eof [], dropped, buf0 ++ [t], buf0.length + 1, marks, nr⟩ := by
      unfold msaTokenMoveToNext
      rw [if_neg (by simp)]
      simp only [hload]
    rw [hmv]
    cases f with
    | zero => rfl
    | succ g =>
      rw [msaTokenDrain]
      rw [show msaCurrent?
        (⟨SrcState.mid eof [], dropped, buf0 ++ [t], buf0.length + 1, marks, nr⟩ : MSA Tok) =
        none from List.get?_eq_none.mpr (by simp)]
  | cons t2 r2 ih =>
    intro t eof buf0 dropped cur marks nr fuel ht he hb hcur hf
    rcases fuel with _ | f
    · omega
    subst hcur
    simp only [List.cons_append]
    rw [msaTokenDrain]
    simp only [show msaCurrent?
      (⟨SrcState.mid t (t2 :: (r2 ++ [eof])), dropped, buf0 ++ [t], buf0.length, marks,
        nr⟩ : MSA Tok) = some t from List.get?_concat_length buf0 t]
    congr 1
    have ht2 : t2.type ≠ eofType := hb t2 (by simp)
    have hload : msaTokenLoadOne
        ⟨SrcState.mid t (t2 :: (r2 ++ [eof])), dropped, buf0 ++ [t], buf0.length, marks, nr⟩ =
        ⟨SrcState.mid t2 (r2 ++ [eof]), dropped, (buf0 ++ [t]) ++ [t2], buf0.length, marks,
          nr⟩ := by
      simp only [msaTokenLoadOne]
      rw [if_pos ht]
      simp only [srcMove]
      rw [if_pos ht2]
    have hmv : msaTokenMoveToNext
        ⟨SrcState.mid t (t2 :: (r2 ++ [eof])), dropped, buf0 ++ [t], buf0.length, marks, nr⟩ =
        ⟨SrcState.mid t2 (r2 ++ [eof]), dropped, (buf0 ++ [t]) ++ [t2], buf0.length + 1,
          marks, nr⟩ := by
      unfold msaTokenMoveToNext
      rw [if_neg (by simp)]
      simp only [hload]
    rw [hmv]
    exact ih t2 eof (buf0 ++ [t]) dropped (buf0.length + 1) marks nr f ht2 he
      (fun x hx => hb x (by simp [hx])) (by simp) (by simp at hf; omega)

theorem msaTokenDrain_init (body : List Tok) (eof : Tok)
    (hb : ∀ x ∈ body, x.type ≠ eofType) (he : eof.type = eofType)
    (fuel : Nat) (hf : body.length + 1 ≤ fuel) :
    msaTokenDrain fuel (msaTokenInit (SrcState.atStart (body ++ [eof]))) = body := by
  cases body with
  | nil =>
    have hinit : msaTokenInit (SrcState.atStart ([] ++ [eof])) =
        ⟨SrcState.mid eof [], 0, [], 0, [], 0⟩ := by
      show msaTokenInitCore (srcMove (SrcState.atStart [eof])) =
        ⟨SrcState.mid eof [], 0, [], 0, [], 0⟩
      simp only [srcMove]
      simp only [msaTokenInitCore]
      rw [if_neg (by simp [he])]
    rw [hinit]
    cases fuel with
    | zero => rfl
    | succ g => rfl
  | cons t ts =>
    have ht : t.type ≠ eofType := hb t (by simp)
    have hinit : msaTokenInit (SrcState.atStart ((t :: ts) ++ [eof])) =
        ⟨SrcState.mid t (ts ++ [eof]), 0, [t], 0, [], 0⟩ := by
      show msaTokenInitCore (srcMove (SrcState.atStart (t :: (ts ++ [eof])))) =
        ⟨SrcState.mid t (ts ++ [eof]), 0, [t], 0, [], 0⟩
      simp only [srcMove]
      simp only [msaTokenInitCore]
      rw [if_pos ht]
    rw [hinit]
    exact msaTokenDrain_mid ts t eof [] 0 0 [] 0 fuel ht he
      (fun x hx => hb x (by simp [hx])) rfl (by simp at hf; omega)

theorem tokenSourceItems_eofFree (body : List Tok) (eof : Tok)
    (hb : ∀ x ∈ body, x.type ≠ eofType) :
    tokenSourceItems body eof = body ++ [eof] := by
  induction body with
  | nil => rfl
  | cons t ts ih =>
    rw [tokenSourceItems]
    rw [if_neg (hb t (by simp))]
    rw [ih (fun x hx => hb x (by simp [hx]))]
    rfl

theorem dropWhile_eofFree (body : List Tok) (eof : Tok)
    (hb : ∀ x ∈ body, x.type ≠ eofType) (he : eof.type = eofType) :
    (body ++ [eof]).dropWhile (fun t => t.type ≠ eofType) = [eof] := by
  induction body with
  | nil =>
    simp [List.dropWhile_cons, he]
  | cons t ts ih =>
    have ht : t.type ≠ eofType := hb t (by simp)
    simp only [List.cons_append, List.dropWhile_cons]
    rw [if_pos (by simp [ht])]
    exact ih (fun x hx => hb x (by simp [hx]))

theorem tokenAdapterPresented_eq (body : List Tok) (eof : Tok)
    (hb : ∀ x ∈ body, x.type ≠ eofType) (he : eof.type = eofType) :
    tokenAdapterPresented (body ++ [eof]) ((body ++ [eof]).length + 1) = body ++ [eof] := by
  unfold tokenAdapterPresented
  rw [msaTokenDrain_init body eof hb he _
    (by simp only [List.length_append, List.length_cons, List.length_nil]; omega)]
  rw [dropWhile_eofFree body eof hb he]
  rfl

/-- C1: for every input line sequence and makefile descriptor, and any
lexer/parser collaborators whose lexers emit no EOF-typed tokens in band
and mint EOF-typed EOF tokens, the buffered pipeline assembly
(`make_target_iterator_for_file`) and the streaming pipeline assembly
(`make_target_iterator_for_file_streaming`) produce identical emitted
target sequences. -/
theorem factories_c1 (lines : List String)
    (lex1 : List Char → List Tok) (eof1 : Tok)
    (lex2 : List Char → List Tok) (eof2 : Tok)
    (parse : List Tok → List DeclResult) (mk : Option MakefileDesc)
    (hlex2 : ∀ cs, ∀ x ∈ lex2 cs, x.type ≠ eofType)
    (he2 : eof2.type = eofType) :
    makeTargetIteratorForFile lines lex1 eof1 lex2 eof2 parse mk =
    makeTargetIteratorForFileStreaming lines lex1 eof1 lex2 eof2 parse mk := by
  have hstream : ∀ X : List Char,
      inputStreamChars (factoryDrain (SrcState.atStart X)) =
      msaDrain (msaDrainFuel X) (msaInit (SrcState.atStart X)) := by
    intro X
    show factoryDrain (SrcState.atStart X) =
      msaDrain (X.length + 1) (msaInit (SrcState.atStart X))
    rw [factoryDrain_atStart, msaDrain_init]
  have hpres : ∀ Y : List Char,
      commonTokenStreamPresented (lex2 Y) eof2 =
      tokenAdapterPresented (tokenSourceItems (lex2 Y) eof2)
        ((tokenSourceItems (lex2 Y) eof2).length + 1) := by
    intro Y
    rw [tokenSourceItems_eofFree (lex2 Y) eof2 (hlex2 Y)]
    rw [tokenAdapterPresented_eq (lex2 Y) eof2 (hlex2 Y) he2]
    rfl
  simp only [makeTargetIteratorForFile, makeTargetIteratorForFileStreaming]
  rw [hstream, hstream, hpres]

/-- C1 witness: the factory equivalence instantiated with concrete trivial
collaborators over a concrete database listing. -/
theorem factories_c1_witness :
    makeTargetIteratorForFile
      (String.mk ('#' :: ' ' :: 'F' :: 'i' :: 'l' :: 'e' :: 's' :: []) :: [])
      (fun _ => []) ⟨eofType, []⟩ (fun _ => []) ⟨eofType, []⟩
      (fun _ => []) none =
    makeTargetIteratorForFileStreaming
      (String.mk ('#' :: ' ' :: 'F' :: 'i' :: 'l' :: 'e' :: 's' :: []) :: [])
      (fun _ => []) ⟨eofType, []⟩ (fun _ => []) ⟨eofType, []⟩
      (fun _ => []) none :=
  factories_c1 (String.mk ('#' :: ' ' :: 'F' :: 'i' :: 'l' :: 'e' :: 's' :: []) :: [])
    (fun _ => []) ⟨eofType, []⟩ (fun _ => []) ⟨eofType, []⟩ (fun _ => []) none
    (fun cs x hx => absurd hx (List.not_mem_nil x)) rfl

/-- C8 witness: the amended line-construction law instantiated on the
concrete terminator-bounded string consisting of two letters and one
trailing newline. -/
theorem lineMake_c8_witness :
    lineMake ('a' :: 'b' :: Char.ofNat 10 :: []) = Except.ok ('a' :: 'b' :: []) :=
  ((lineMake_c8_amended ('a' :: 'b' :: Char.ofNat 10 :: [])).2 (by decide)).trans
    (by decide)

end MakeSmartRecurse
